import Mathlib

/-!
Shallow embedding of the core of the `ledger-go` repository
(journal parsing/validation, FIFO lot registry, price history,
portfolio valuation, performance and time series), together with
proofs of the specification claims about it.

Conventions of the embedding:
* Go `float64` amounts are modelled as exact rationals (`ℚ`); claims about
  sums and differences are settled in exact arithmetic, which is what the
  spec's "up to floating rounding" clauses refer back to.
* Go `time.Time` values (always `YYYY/MM/DD` midnight UTC here) are modelled
  by a `Date` structure (year/month/day); `Before`/`After`/`Equal` compare
  through `Date.toDays`, a proleptic Gregorian absolute-day count that agrees
  with Go's internal absolute time up to a constant offset.
* Go maps keyed by commodity name are modelled as association lists with a
  lookup that yields the zero value (`[]`) for a missing key, exactly like a
  Go map read; iteration order over association lists is list order (Go map
  iteration order is unspecified, and all map iterations in the modelled code
  are order-insensitive in their observable results).
* Methods that mutate their receiver are modelled by returning the new state
  alongside the result, with error branches returning the receiver unchanged
  exactly where the Go code returns before its first mutation.
* Fallible Go functions returning `(T, error)` become `Except E T` with a
  structured error type holding the data interpolated into the Go error
  message.
-/

deriving instance DecidableEq for Except

/-! ## Dates (`time.Time` at day granularity) -/

/-- A calendar date, modelling the `YYYY/MM/DD`-midnight-UTC `time.Time`
values this program works with. -/
structure Date where
  year : Int
  month : Int
  day : Int
deriving DecidableEq, Repr

/-- Gregorian leap-year rule, as in Go's `isLeap`.  (Go computes year
remainders with truncated division; for the years ≥ 1 that occur in parsed
dates this agrees with `Int.emod`.) -/
def isLeapYear (y : Int) : Bool :=
  y % 4 == 0 && (y % 100 != 0 || y % 400 == 0)

/-- Number of days in the given month of the given year. -/
def daysInMonth (y m : Int) : Int :=
  if m = 2 then (if isLeapYear y then 29 else 28)
  else if m = 4 ∨ m = 6 ∨ m = 9 ∨ m = 11 then 30
  else 31

/-- Days in year `y` that lie strictly before month `m` (for `1 ≤ m ≤ 12`;
`m ≥ 13` is mapped to the whole year, used transiently by date
normalization). -/
def daysBeforeMonth (y m : Int) : Int :=
  let leap : Int := if isLeapYear y then 1 else 0
  if m ≤ 1 then 0
  else if m = 2 then 31
  else if m = 3 then 59 + leap
  else if m = 4 then 90 + leap
  else if m = 5 then 120 + leap
  else if m = 6 then 151 + leap
  else if m = 7 then 181 + leap
  else if m = 8 then 212 + leap
  else if m = 9 then 243 + leap
  else if m = 10 then 273 + leap
  else if m = 11 then 304 + leap
  else if m = 12 then 334 + leap
  else 365 + leap

/-- Number of leap years in `[1, y)`. -/
def leapYearsBefore (y : Int) : Int :=
  (y - 1) / 4 - (y - 1) / 100 + (y - 1) / 400

/-- Absolute day count of a date (0001/01/01 ↦ 0), the embedding of Go's
internal absolute time.  Linear in `day`, so it is also meaningful for
transiently denormalized day values. -/
def Date.toDays (d : Date) : Int :=
  365 * (d.year - 1) + leapYearsBefore d.year + daysBeforeMonth d.year d.month + d.day - 1

/-- Alias for `Date`, usable in signatures where a structure field named
`Date` shadows the type (Go `time.Time`). -/
abbrev Time := Date

/-- `a.Before b` of Go `time.Time`. -/
def Date.Before (a b : Date) : Bool := a.toDays < b.toDays

/-- `a.After b` of Go `time.Time`. -/
def Date.After (a b : Date) : Bool := b.toDays < a.toDays

/-! ## Association-list rendering of Go maps -/

/-- Go map read: the value stored for `k`, or the zero value `d`. -/
def lookupD {α : Type} (m : List (String × α)) (k : String) (d : α) : α :=
  match m with
  | [] => d
  | (k', v) :: rest => if k' = k then v else lookupD rest k d

/-- Go map write `m[k] = v`. -/
def mapSet {α : Type} (m : List (String × α)) (k : String) (v : α) : List (String × α) :=
  match m with
  | [] => [(k, v)]
  | (k', v') :: rest => if k' = k then (k, v) :: rest else (k', v') :: mapSet rest k v

/-! ## Lot registry (`src/ledger/lot.go`) -/

/-- `Lot` of `lot.go`: a single purchase of an asset with its cost basis. -/
structure Lot where
  Commodity : String
  AcquisitionDate : Date
  OriginalQuantity : ℚ
  RemainingQuantity : ℚ
  CostBasis : ℚ
  CostPerUnit : ℚ
  Account : String
deriving DecidableEq, Repr

/-- `LotDisposal` of `lot.go`.  Go stores a pointer `*Lot`; here the lot's
value at record-creation time is stored.  The program reads only fields that
`DisposeFIFO` never mutates (`CostPerUnit` etc.) through this reference, so
the value copy is observationally equivalent. -/
structure LotDisposal where
  Lot : Lot
  DisposalDate : Date
  QuantityDisposed : ℚ
  Proceeds : ℚ
  RealizedGain : ℚ
deriving DecidableEq, Repr

/-- `LotRegistry` of `lot.go`. -/
structure LotRegistry where
  LotsByCommodity : List (String × List Lot)
  Disposals : List LotDisposal
deriving DecidableEq, Repr

/-- `NewLotRegistry`. -/
def NewLotRegistry : LotRegistry := { LotsByCommodity := [], Disposals := [] }

/-- The Go map read `r.LotsByCommodity[commodity]` (empty slice if absent). -/
def LotRegistry.lotsFor (r : LotRegistry) (c : String) : List Lot :=
  lookupD r.LotsByCommodity c []

/-- Insertion into a date-sorted lot list; `AddLot`'s
`append` + `sort.Slice(..., Before)` re-establishes date order, rendered here
as a full insertion sort by acquisition date. -/
def insertLotByDate (lot : Lot) : List Lot → List Lot
  | [] => [lot]
  | l :: rest =>
    if lot.AcquisitionDate.toDays < l.AcquisitionDate.toDays then lot :: l :: rest
    else l :: insertLotByDate lot rest

/-- Sort a lot list ascending by acquisition date (`sort.Slice` with
`Before`). -/
def sortLotsByDate : List Lot → List Lot
  | [] => []
  | l :: rest => insertLotByDate l (sortLotsByDate rest)

/-- `AddLot` of `lot.go`: append the lot and re-sort that commodity's list by
acquisition date. -/
def LotRegistry.AddLot (r : LotRegistry) (lot : Lot) : LotRegistry :=
  { r with
    LotsByCommodity :=
      mapSet r.LotsByCommodity lot.Commodity
        (sortLotsByDate (r.lotsFor lot.Commodity ++ [lot])) }

/-- `RemainingQuantity` of `lot.go`: total remaining quantity for a
commodity. -/
def LotRegistry.RemainingQuantity (r : LotRegistry) (c : String) : ℚ :=
  (r.lotsFor c).foldl (fun total lot => total + lot.RemainingQuantity) 0

/-- The errors `DisposeFIFO` can raise, carrying the data Go interpolates
into the error string. -/
inductive LotError
  | quantityNotPositive (lineNumber : Nat) (quantity : ℚ)
  | insufficientQuantity (lineNumber : Nat) (commodity : String) (want got : ℚ)
deriving DecidableEq, Repr

/-- The lot-walking loop of `DisposeFIFO` (lines 81–114 of `lot.go`): walk the
commodity's lots in list order, skip exhausted lots, consume
`min(lot.RemainingQuantity, quantityToDispose)` from each, build a disposal
record per consumption, stop once nothing is left to dispose.  Returns the
updated lot list and the disposal records in creation order. -/
def disposeLoop (disposalDate : Date) (proceedsPerUnit : ℚ) :
    List Lot → ℚ → List Lot × List LotDisposal
  | [], _ => ([], [])
  | lot :: rest, quantityToDispose =>
    if quantityToDispose ≤ 0 then (lot :: rest, [])
    else if lot.RemainingQuantity ≤ 0 then
      let r := disposeLoop disposalDate proceedsPerUnit rest quantityToDispose
      (lot :: r.1, r.2)
    else
      let disposeFromLot :=
        if quantityToDispose < lot.RemainingQuantity then quantityToDispose
        else lot.RemainingQuantity
      let proceeds := disposeFromLot * proceedsPerUnit
      let costOfDisposed := disposeFromLot * lot.CostPerUnit
      let disposal : LotDisposal :=
        { Lot := lot
          DisposalDate := disposalDate
          QuantityDisposed := disposeFromLot
          Proceeds := proceeds
          RealizedGain := proceeds - costOfDisposed }
      let r := disposeLoop disposalDate proceedsPerUnit rest
        (quantityToDispose - disposeFromLot)
      ({ lot with RemainingQuantity := lot.RemainingQuantity - disposeFromLot } :: r.1,
       disposal :: r.2)

/-- `DisposeFIFO` of `lot.go`.  The Go method mutates its receiver and returns
`([]LotDisposal, error)`; here the post-state is returned alongside, and the
two error returns (which Go takes before any mutation) leave the registry
untouched. -/
def LotRegistry.DisposeFIFO (r : LotRegistry) (commodity : String) (quantity : ℚ)
    (disposalDate : Date) (totalProceeds : ℚ) (lineNumber : Nat) :
    Except LotError (List LotDisposal) × LotRegistry :=
  if quantity ≤ 0 then (.error (.quantityNotPositive lineNumber quantity), r)
  else
    let remaining := r.RemainingQuantity commodity
    if remaining < quantity then
      (.error (.insufficientQuantity lineNumber commodity quantity remaining), r)
    else
      let proceedsPerUnit := totalProceeds / quantity
      let res := disposeLoop disposalDate proceedsPerUnit (r.lotsFor commodity) quantity
      (.ok res.2,
       { LotsByCommodity := mapSet r.LotsByCommodity commodity res.1
         Disposals := r.Disposals ++ res.2 })

/-! ### Concrete sample data used by witnesses -/

/-- Placeholder lot used as the default of `List.getD` in positional
statements; out-of-range indices never occur under the stated bounds. -/
def defaultLot : Lot :=
  { Commodity := ""
    AcquisitionDate := { year := 1, month := 1, day := 1 }
    OriginalQuantity := 0
    RemainingQuantity := 0
    CostBasis := 0
    CostPerUnit := 0
    Account := "" }

/-- A registry with two BTC lots (older: 1 BTC at 40000/unit, newer: 2 BTC at
50000/unit), used to instantiate the lot-registry theorems. -/
def c1Reg : LotRegistry :=
  { LotsByCommodity :=
      [("BTC",
        [{ Commodity := "BTC"
           AcquisitionDate := { year := 2024, month := 1, day := 1 }
           OriginalQuantity := 1
           RemainingQuantity := 1
           CostBasis := 40000
           CostPerUnit := 40000
           Account := "Assets:Bitcoin" },
         { Commodity := "BTC"
           AcquisitionDate := { year := 2024, month := 2, day := 1 }
           OriginalQuantity := 2
           RemainingQuantity := 2
           CostBasis := 100000
           CostPerUnit := 50000
           Account := "Assets:Bitcoin" }])]
    Disposals := [] }

/-- Result of disposing 1.5 BTC for 90000 on `c1Reg`. -/
def c1Res : Except LotError (List LotDisposal) × LotRegistry :=
  c1Reg.DisposeFIFO "BTC" (3 / 2) { year := 2024, month := 3, day := 1 } 90000 7

/-- The disposal records of `c1Res`. -/
def c1Ds : List LotDisposal := c1Res.1.toOption.getD []

/-- Sum of remaining quantities of a lot list. -/
def sumRemaining (lots : List Lot) : ℚ :=
  (lots.map (fun l => l.RemainingQuantity)).sum

/-! ## Ledger entries and balance validation (`part_003` of the source) -/

/-- `LedgerAccount` of the parser: one account line of an entry. -/
structure LedgerAccount where
  Name : String
  Amount : ℚ
  Commodity : String
  PriceType : String
  PriceAmount : ℚ
  PriceCommodity : String
  Elided : Bool
deriving DecidableEq, Repr

/-- Zero value of `LedgerAccount` (Go `var a LedgerAccount`), also used as the
`getD` default in positional statements. -/
def defaultAccount : LedgerAccount :=
  { Name := ""
    Amount := 0
    Commodity := ""
    PriceType := ""
    PriceAmount := 0
    PriceCommodity := ""
    Elided := false }

/-- `LedgerEntry` of the parser.  Go represents a missing effective date by
the zero `time.Time` (`IsZero`); here it is `Option Date`.  The metadata map
is not modelled: no claim depends on it. -/
structure LedgerEntry where
  LineNumber : Nat
  Date : Time
  EffectiveDate : Option Time
  Name : String
  Accounts : List LedgerAccount
deriving DecidableEq, Repr

/-- `balanceEpsilon` of the parser: tolerance for balance comparisons. -/
def balanceEpsilon : ℚ := 0.005

/-- `balanceAmount` of the parser: the amount and commodity an account
contributes to balance validation, applying the price annotation. -/
def LedgerAccount.balanceAmount (a : LedgerAccount) : ℚ × String :=
  if a.PriceType = "" then (a.Amount, a.Commodity)
  else if a.PriceType = "@" then (a.Amount * a.PriceAmount, a.PriceCommodity)
  else if a.Amount < 0 then (-a.PriceAmount, a.PriceCommodity)
  else (a.PriceAmount, a.PriceCommodity)

/-- The elided-account scan of `validateBalance` (an account is elided iff its
commodity is empty): returns the index of the single elided account, `none` if
there is none, and an error as soon as a second one is found. -/
def findElidedIdx : List LedgerAccount → Nat → Option Nat → Except Unit (Option Nat)
  | [], _, acc => .ok acc
  | a :: rest, i, acc =>
    if a.Commodity = "" then
      match acc with
      | some _ => .error ()
      | none => findElidedIdx rest (i + 1) (some i)
    else findElidedIdx rest (i + 1) acc

/-- The per-commodity summation of `validateBalance`:
`sums[commodity] += amount` over all accounts except the elided one, with the
Go map rendered as an association list in first-insertion order. -/
def computeSums : List LedgerAccount → Nat → Option Nat → List (String × ℚ) →
    List (String × ℚ)
  | [], _, _, sums => sums
  | a :: rest, i, elidedIdx, sums =>
    if elidedIdx = some i then computeSums rest (i + 1) elidedIdx sums
    else
      let p := a.balanceAmount
      computeSums rest (i + 1) elidedIdx (mapSet sums p.2 (lookupD sums p.2 0 + p.1))

/-- In-place update of the element at an index (Go `e.Accounts[i] = …`);
out-of-range indices leave the list unchanged. -/
def listModify {α : Type} (f : α → α) : Nat → List α → List α
  | _, [] => []
  | 0, a :: rest => f a :: rest
  | n + 1, a :: rest => a :: listModify f n rest

/-- The errors `validateBalance` can raise, carrying the data Go interpolates
into the error string. -/
inductive BalanceError
  | multipleElided (startLine : Nat)
  | cannotInfer (startLine : Nat)
  | notBalanced (startLine : Nat) (commodity : String) (off : ℚ)
deriving DecidableEq, Repr

/-- `validateBalance` of the parser.  The Go method mutates
`e.Accounts[elidedIdx]`; here the (possibly updated) account list is
returned. -/
def validateBalance (e : LedgerEntry) (startLine : Nat) :
    Except BalanceError (List LedgerAccount) :=
  match findElidedIdx e.Accounts 0 none with
  | .error _ => .error (.multipleElided startLine)
  | .ok elidedIdx =>
    let sums := computeSums e.Accounts 0 elidedIdx []
    match elidedIdx with
    | some i =>
      if sums.length = 0 then .error (.cannotInfer startLine)
      else
        let accs :=
          if sums.length = 1 then
            match sums with
            | (c0, s) :: _ =>
              listModify (fun a => { a with Amount := -s, Commodity := c0 }) i e.Accounts
            | [] => e.Accounts
          else e.Accounts
        .ok (listModify (fun a => { a with Elided := true }) i accs)
    | none =>
      if 1 < sums.length then .ok e.Accounts
      else
        match sums with
        | [] => .ok e.Accounts
        | (c0, s) :: _ =>
          if s < -balanceEpsilon ∨ balanceEpsilon < s then
            .error (.notBalanced startLine c0 s)
          else .ok e.Accounts

/-! ## Lot extraction from parsed entries (`extractLots` of `part_003`) -/

/-- `strings.HasPrefix` of Go, rendered over the character lists so that it
evaluates by reduction. -/
def hasPrefixGo (p s : String) : Bool :=
  p.data.isPrefixOf s.data

/-- `isAssetAccount`: whether the account name has one of the configured
asset-account prefixes (`strings.HasPrefix`). -/
def isAssetAccount (assetAccounts : List String) (name : String) : Bool :=
  assetAccounts.any (fun p => hasPrefixGo p name)

/-- The date an entry contributes to temporal logic: the effective date when
present, otherwise the accounting date. -/
def LedgerEntry.effDate (e : LedgerEntry) : Time :=
  match e.EffectiveDate with
  | none => e.Date
  | some d => d

/-- The per-account body of `extractLots`: skip non-asset accounts and
accounts without a price annotation; a positive amount creates a lot, a
negative amount triggers `DisposeFIFO` with quantity `-amount` and proceeds
`-costBasis`. -/
def extractLotsAccount (assetAccounts : List String) (date : Date) (ln : Nat)
    (r : LotRegistry) (a : LedgerAccount) : Except LotError LotRegistry :=
  if ¬ isAssetAccount assetAccounts a.Name ∨ a.PriceType = "" then .ok r
  else
    let costBasis := if a.PriceType = "@" then a.Amount * a.PriceAmount else a.PriceAmount
    if 0 < a.Amount then
      .ok (r.AddLot
        { Commodity := a.Commodity
          AcquisitionDate := date
          OriginalQuantity := a.Amount
          RemainingQuantity := a.Amount
          CostBasis := costBasis
          CostPerUnit := costBasis / a.Amount
          Account := a.Name })
    else if a.Amount < 0 then
      let quantity := -a.Amount
      let proceeds := -costBasis
      match r.DisposeFIFO a.Commodity quantity date proceeds ln with
      | (.error e, _) => .error e
      | (.ok _, r2) => .ok r2
    else .ok r

/-- The account loop of `extractLots` within one entry, returning on the
first error as the Go code does. -/
def extractLotsAccounts (assetAccounts : List String) (date : Date) (ln : Nat) :
    LotRegistry → List LedgerAccount → Except LotError LotRegistry
  | r, [] => .ok r
  | r, a :: rest =>
    match extractLotsAccount assetAccounts date ln r a with
    | .error e => .error e
    | .ok r2 => extractLotsAccounts assetAccounts date ln r2 rest

/-- `extractLots` over the accounts of one entry. -/
def extractLotsEntry (assetAccounts : List String) (r : LotRegistry)
    (e : LedgerEntry) : Except LotError LotRegistry :=
  extractLotsAccounts assetAccounts e.effDate e.LineNumber r e.Accounts

/-- `extractLots` of `part_003`: process all entries in order, creating lots
for purchases and disposing FIFO for sales, aborting on the first error. -/
def extractLots (assetAccounts : List String) (r : LotRegistry) :
    List LedgerEntry → Except LotError LotRegistry
  | [] => .ok r
  | e :: rest =>
    match extractLotsEntry assetAccounts r e with
    | .error err => .error err
    | .ok r2 => extractLots assetAccounts r2 rest

/-- The single-entry ledger of the repository regression test
`TestExtractLots_DisposalWithoutPriorLots` (`2017/05/04 Exchange`, selling
1.21932430 ZEC at 93 EUR per unit from an asset account with no prior ZEC
lots). -/
def c2Entry : LedgerEntry :=
  { LineNumber := 6
    Date := { year := 2017, month := 5, day := 4 }
    EffectiveDate := none
    Name := "Exchange"
    Accounts :=
      [{ Name := "Assets:Cash"
         Amount := 0
         Commodity := ""
         PriceType := ""
         PriceAmount := 0
         PriceCommodity := ""
         Elided := false },
       { Name := "Assets:Savings:Cryptocurrencies:Zcash"
         Amount := -(121932430 : ℚ) / 100000000
         Commodity := "ZEC"
         PriceType := "@"
         PriceAmount := 93
         PriceCommodity := "EUR"
         Elided := false }] }

/-- Number of elided accounts (empty commodity) in an account list. -/
def countElided : List LedgerAccount → Nat
  | [] => 0
  | a :: rest => (if a.Commodity = "" then 1 else 0) + countElided rest

/-- An account line `Expenses:Food  10 EUR`. -/
def c4Food : LedgerAccount :=
  { Name := "Expenses:Food"
    Amount := 10
    Commodity := "EUR"
    PriceType := ""
    PriceAmount := 0
    PriceCommodity := ""
    Elided := false }

/-- An account line `Assets:Cash  -10 EUR`. -/
def c4Cash : LedgerAccount :=
  { Name := "Assets:Cash"
    Amount := -10
    Commodity := "EUR"
    PriceType := ""
    PriceAmount := 0
    PriceCommodity := ""
    Elided := false }

/-- A balanced two-account EUR entry with no elided amount. -/
def c4Entry : LedgerEntry :=
  { LineNumber := 3
    Date := { year := 2024, month := 1, day := 2 }
    EffectiveDate := none
    Name := "Groceries"
    Accounts := [c4Food, c4Cash] }

/-- A bare account line `Assets:Cash` (amount elided). -/
def c5Cash : LedgerAccount :=
  { Name := "Assets:Cash"
    Amount := 0
    Commodity := ""
    PriceType := ""
    PriceAmount := 0
    PriceCommodity := ""
    Elided := false }

/-- An entry whose second account is elided and must be inferred. -/
def c5Entry : LedgerEntry :=
  { LineNumber := 3
    Date := { year := 2024, month := 1, day := 2 }
    EffectiveDate := none
    Name := "Groceries"
    Accounts := [c4Food, c5Cash] }

/-! ## Price history (`part_004` of the source) -/

/-- `PricePoint`: a market price at a specific date. -/
structure PricePoint where
  Date : Time
  Commodity : String
  Price : ℚ
deriving DecidableEq, Repr

/-- `PriceHistory`: per-commodity price points sorted by date. -/
structure PriceHistory where
  Prices : List (String × List PricePoint)
deriving DecidableEq, Repr

/-- `NewPriceHistory`. -/
def NewPriceHistory : PriceHistory := { Prices := [] }

/-- The Go map read `h.Prices[commodity]` (empty slice if absent). -/
def PriceHistory.pricesFor (h : PriceHistory) (c : String) : List PricePoint :=
  lookupD h.Prices c []

/-- Insertion into a date-sorted point list (`AddPrice`'s
`append` + `sort.Slice(..., Before)`, rendered as insertion sort). -/
def insertPointByDate (pt : PricePoint) : List PricePoint → List PricePoint
  | [] => [pt]
  | p :: rest =>
    if pt.Date.toDays < p.Date.toDays then pt :: p :: rest
    else p :: insertPointByDate pt rest

/-- Sort a point list ascending by date. -/
def sortPointsByDate : List PricePoint → List PricePoint
  | [] => []
  | p :: rest => insertPointByDate p (sortPointsByDate rest)

/-- `AddPrice` of `part_004`: append the point and re-sort that commodity's
list by date (duplicates allowed). -/
def PriceHistory.AddPrice (h : PriceHistory) (commodity : String) (date : Time)
    (price : ℚ) : PriceHistory :=
  { Prices :=
      mapSet h.Prices commodity
        (sortPointsByDate (h.pricesFor commodity ++
          [{ Date := date, Commodity := commodity, Price := price }])) }

/-- Placeholder point used as the `getD` default; the binary search never
reads out of range. -/
def defaultPoint : PricePoint :=
  { Date := { year := 1, month := 1, day := 1 }, Commodity := "", Price := 0 }

/-- The loop of Go's `sort.Search`: binary search for the least index in
`[i, j)` satisfying `f`, returning `j` if none does (assuming `f` is
monotone on the range). -/
def sortSearchLoop (f : Nat → Bool) (i j : Nat) : Nat :=
  if h : i < j then
    let hh := (i + j) / 2
    if f hh then sortSearchLoop f i hh else sortSearchLoop f (hh + 1) j
  else i
termination_by j - i
decreasing_by
  · omega
  · omega

/-- Go `sort.Search(n, f)`. -/
def sortSearch (n : Nat) (f : Nat → Bool) : Nat := sortSearchLoop f 0 n

/-- The errors `GetPrice` can raise. -/
inductive PriceError
  | noHistory (commodity : String)
  | noPriceOnOrBefore (commodity : String) (date : Time)
deriving DecidableEq, Repr

/-- `GetPrice` of `part_004`: the price of the latest point with date ≤ the
query date, found by binary search; errors when the commodity has no points
or the query date precedes the first point. -/
def PriceHistory.GetPrice (h : PriceHistory) (commodity : String) (date : Time) :
    Except PriceError ℚ :=
  let prices := h.pricesFor commodity
  if prices.isEmpty then .error (.noHistory commodity)
  else
    let idx := sortSearch prices.length
      (fun i => (prices.getD i defaultPoint).Date.After date)
    if idx = 0 then .error (.noPriceOnOrBefore commodity date)
    else .ok (prices.getD (idx - 1) defaultPoint).Price

/-- A BTC price point: 40000 on 2024/01/01. -/
def c6P0 : PricePoint :=
  { Date := { year := 2024, month := 1, day := 1 }, Commodity := "BTC", Price := 40000 }

/-- A BTC price point: 42000 on 2024/02/01. -/
def c6P1 : PricePoint :=
  { Date := { year := 2024, month := 2, day := 1 }, Commodity := "BTC", Price := 42000 }

/-- A price history with two BTC points. -/
def c6Hist : PriceHistory := { Prices := [("BTC", [c6P0, c6P1])] }

/-! ## Portfolio engine (`portfolio.go`) and performance (`part_005`) -/

/-- `CashFlow` of `portfolio.go`. -/
structure CashFlow where
  Date : Time
  Amount : ℚ
  FlowType : String
deriving DecidableEq, Repr

/-- `CommodityHolding` of `portfolio.go`. -/
structure CommodityHolding where
  Commodity : String
  TotalQuantity : ℚ
  TotalCostBasis : ℚ
  WeightedAverageCost : ℚ
  MarketValue : ℚ
  UnrealizedGain : ℚ
  UnrealizedGainPercent : ℚ
  LotCount : Nat
  FirstAcquisition : Time
  LastAcquisition : Time
deriving DecidableEq, Repr

/-- `PortfolioSnapshot` of `portfolio.go`. -/
structure PortfolioSnapshot where
  Date : Time
  Holdings : List (String × CommodityHolding)
  TotalMarketValue : ℚ
  TotalCostBasis : ℚ
  TotalUnrealizedGain : ℚ
  TotalUnrealizedGainPercent : ℚ
  CashFlowToDate : ℚ
  Allocations : List (String × ℚ)
deriving DecidableEq, Repr

/-- Zero-valued snapshot, used only as a `getD` default. -/
def defaultSnapshot : PortfolioSnapshot :=
  { Date := { year := 1, month := 1, day := 1 }
    Holdings := []
    TotalMarketValue := 0
    TotalCostBasis := 0
    TotalUnrealizedGain := 0
    TotalUnrealizedGainPercent := 0
    CashFlowToDate := 0
    Allocations := [] }

/-- `Portfolio` of `portfolio.go`.  The `Snapshots` memoization cache is not
modelled: the code only writes to it and never reads it, so it has no
observable effect. -/
structure Portfolio where
  Lots : LotRegistry
  Prices : PriceHistory
  CashFlows : List CashFlow
  AssetAccounts : List String
deriving DecidableEq, Repr

/-- The inner lot-aggregation loop of `Snapshot` for one commodity: skip lots
acquired after the snapshot date or fully disposed; initialize the holding on
the first qualifying lot (`FirstAcquisition`); accumulate quantity, remaining
cost basis (`CostPerUnit * RemainingQuantity`), lot count, and
`LastAcquisition`. -/
def buildHolding (date : Time) (commodity : String) :
    Option CommodityHolding → List Lot → Option CommodityHolding
  | holding, [] => holding
  | holding, lot :: rest =>
    if lot.AcquisitionDate.After date then buildHolding date commodity holding rest
    else if lot.RemainingQuantity ≤ 0 then buildHolding date commodity holding rest
    else
      let h0 :=
        match holding with
        | some h => h
        | none =>
          { Commodity := commodity
            TotalQuantity := 0
            TotalCostBasis := 0
            WeightedAverageCost := 0
            MarketValue := 0
            UnrealizedGain := 0
            UnrealizedGainPercent := 0
            LotCount := 0
            FirstAcquisition := lot.AcquisitionDate
            LastAcquisition := { year := 1, month := 1, day := 1 } }
      buildHolding date commodity
        (some { h0 with
          TotalQuantity := h0.TotalQuantity + lot.RemainingQuantity
          TotalCostBasis := h0.TotalCostBasis + lot.CostPerUnit * lot.RemainingQuantity
          LotCount := h0.LotCount + 1
          LastAcquisition := lot.AcquisitionDate })
        rest

/-- The per-commodity loop of `Snapshot`: for each commodity with a qualifying
holding, price it via `GetPrice` (failing the whole snapshot on error) and
accumulate the holdings list, total market value and total cost basis.
(Go iterates its map in unspecified order; the association list is walked in
list order — the sums are order-independent.) -/
def snapshotCommodities (prices : PriceHistory) (date : Time) :
    List (String × List Lot) →
    Except PriceError (List (String × CommodityHolding) × ℚ × ℚ)
  | [] => .ok ([], 0, 0)
  | (commodity, lots) :: rest =>
    match buildHolding date commodity none lots with
    | none => snapshotCommodities prices date rest
    | some h0 =>
      if h0.TotalQuantity ≤ 0 then snapshotCommodities prices date rest
      else
        match prices.GetPrice commodity date with
        | .error e => .error e
        | .ok price =>
          let mv := h0.TotalQuantity * price
          let h1 :=
            { h0 with
              WeightedAverageCost := h0.TotalCostBasis / h0.TotalQuantity
              MarketValue := mv
              UnrealizedGain := mv - h0.TotalCostBasis
              UnrealizedGainPercent :=
                if 0 < h0.TotalCostBasis then
                  ((mv - h0.TotalCostBasis) / h0.TotalCostBasis) * 100
                else 0 }
          match snapshotCommodities prices date rest with
          | .error e => .error e
          | .ok (hs, tmv, tcb) =>
            .ok ((commodity, h1) :: hs, mv + tmv, h0.TotalCostBasis + tcb)

/-- `Snapshot` of `portfolio.go`: aggregate all lots acquired on or before
`date` with positive remaining quantity, price them, and compute portfolio
totals, allocation percentages and cumulative cash flow. -/
def Portfolio.Snapshot (p : Portfolio) (date : Time) :
    Except PriceError PortfolioSnapshot :=
  match snapshotCommodities p.Prices date p.Lots.LotsByCommodity with
  | .error e => .error e
  | .ok (hs, tmv, tcb) =>
    .ok { Date := date
          Holdings := hs
          TotalMarketValue := tmv
          TotalCostBasis := tcb
          TotalUnrealizedGain := tmv - tcb
          TotalUnrealizedGainPercent := if 0 < tcb then ((tmv - tcb) / tcb) * 100 else 0
          CashFlowToDate :=
            p.CashFlows.foldl
              (fun t cf => if cf.Date.After date then t else t + cf.Amount) 0
          Allocations :=
            if 0 < tmv then hs.map (fun ch => (ch.1, ch.2.MarketValue / tmv * 100))
            else [] }

/-- `PeriodReturn` of `part_005`.  `AnnualizedReturn` is not modelled: Go
computes it with the transcendental `math.Pow`, and no claim refers to it. -/
structure PeriodReturn where
  StartDate : Time
  EndDate : Time
  StartValue : ℚ
  EndValue : ℚ
  NetCashFlow : ℚ
  AbsoluteReturn : ℚ
  Return : ℚ
deriving DecidableEq, Repr

/-- The errors `PeriodReturns` can raise. -/
inductive PerfError
  | startNotBeforeEnd
  | startSnapshot (e : PriceError)
  | endSnapshot (e : PriceError)
deriving DecidableEq, Repr

/-- `PeriodReturns` of `part_005`: Modified-Dietz money-weighted return
between two dates.  `endDate.Sub(startDate).Hours() / 24` is the exact day
difference for the midnight-UTC dates of this program. -/
def Portfolio.PeriodReturns (p : Portfolio) (startDate endDate : Time) :
    Except PerfError PeriodReturn :=
  if startDate.Before endDate = false then .error .startNotBeforeEnd
  else
    match p.Snapshot startDate with
    | .error e => .error (.startSnapshot e)
    | .ok startSnapshot =>
      match p.Snapshot endDate with
      | .error e => .error (.endSnapshot e)
      | .ok endSnapshot =>
        let totalDays : ℚ := ((endDate.toDays - startDate.toDays : Int) : ℚ)
        let inPeriod := fun cf : CashFlow =>
          cf.Date.After startDate && !cf.Date.After endDate
        let netCashFlow :=
          p.CashFlows.foldl (fun t cf => if inPeriod cf then t + cf.Amount else t) 0
        let weightedCashFlow :=
          p.CashFlows.foldl
            (fun t cf =>
              if inPeriod cf then
                t + cf.Amount * (((endDate.toDays - cf.Date.toDays : Int) : ℚ) / totalDays)
              else t) 0
        let absoluteReturn :=
          endSnapshot.TotalMarketValue - startSnapshot.TotalMarketValue - netCashFlow
        let denominator := startSnapshot.TotalMarketValue + weightedCashFlow
        .ok { StartDate := startDate
              EndDate := endDate
              StartValue := startSnapshot.TotalMarketValue
              EndValue := endSnapshot.TotalMarketValue
              NetCashFlow := netCashFlow
              AbsoluteReturn := absoluteReturn
              Return :=
                if 0 < denominator then absoluteReturn / denominator
                else if absoluteReturn ≠ 0 then absoluteReturn / netCashFlow
                else 0 }

/-- Start date of the witness period. -/
def c7S : Time := { year := 2024, month := 1, day := 1 }

/-- End date of the witness period. -/
def c7E : Time := { year := 2024, month := 12, day := 31 }

/-- A portfolio with no lots and a single mid-year deposit of 100, so that
both snapshots are trivially valued at 0 and the Modified-Dietz weighting of
the in-period flow is exercised. -/
def c7Port : Portfolio :=
  { Lots := NewLotRegistry
    Prices := NewPriceHistory
    CashFlows :=
      [{ Date := { year := 2024, month := 6, day := 1 }, Amount := 100,
         FlowType := "deposit" }]
    AssetAccounts := [] }

/-- Zero-valued period return, used only as a `getD` default. -/
def defaultPeriodReturn : PeriodReturn :=
  { StartDate := { year := 1, month := 1, day := 1 }
    EndDate := { year := 1, month := 1, day := 1 }
    StartValue := 0
    EndValue := 0
    NetCashFlow := 0
    AbsoluteReturn := 0
    Return := 0 }

/-- The witness portfolio's snapshot at the start date. -/
def c7SS : PortfolioSnapshot := (c7Port.Snapshot c7S).toOption.getD defaultSnapshot

/-- The witness portfolio's snapshot at the end date. -/
def c7ES : PortfolioSnapshot := (c7Port.Snapshot c7E).toOption.getD defaultSnapshot

/-- The witness portfolio's period return over 2024. -/
def c7PR : PeriodReturn :=
  (c7Port.PeriodReturns c7S c7E).toOption.getD defaultPeriodReturn

/-! ## Entry date ordering at parse time (`parseEntry`, lines 464–480) -/

/-- The error of the ascending-date check, carrying the data Go interpolates
into the message (line number, the entry's accounting date, the previous
date). -/
inductive ParseDateError
  | dateBeforePrevious (ln : Nat) (entryDate : Time) (previousDate : Time)
deriving DecidableEq, Repr

/-- `time.Unix(0, 0)` at day granularity: the initial `previousDate` of the
parser's entry loop. -/
def unixEpoch : Time := { year := 1970, month := 1, day := 1 }

/-- The date-ordering check of `parseEntry` (lines 464–480 of `part_003`):
the entry's effective date (accounting date when absent) must not precede
`previousDate`; on success it becomes the new `previousDate`.  Only the date
logic is modelled here — tokenization and balance validation are orthogonal
to the ordering claim. -/
def checkEntryDate (e : LedgerEntry) (previousDate : Time) (ln : Nat) :
    Except ParseDateError Time :=
  let currentDate := e.effDate
  if currentDate.Before previousDate then
    .error (.dateBeforePrevious ln e.Date previousDate)
  else .ok currentDate

/-- The threading of `previousDate` through consecutive `parseEntry` calls in
the parser's main loop (`New`): each parsed entry must pass the date check,
and its effective date becomes the bound for the next entry. -/
def checkDates (previousDate : Time) : List LedgerEntry → Except ParseDateError Unit
  | [] => .ok ()
  | e :: rest =>
    match checkEntryDate e previousDate e.LineNumber with
    | .error err => .error err
    | .ok d => checkDates d rest

/-- Two well-ordered entries for the date-ordering witness. -/
def c9E1 : LedgerEntry :=
  { LineNumber := 6
    Date := { year := 2024, month := 1, day := 1 }
    EffectiveDate := none
    Name := "Opening"
    Accounts := [] }

/-- Second witness entry, dated after `c9E1` via its effective date. -/
def c9E2 : LedgerEntry :=
  { LineNumber := 9
    Date := { year := 2024, month := 1, day := 1 }
    EffectiveDate := some { year := 2024, month := 1, day := 2 }
    Name := "Groceries"
    Accounts := [] }

/-! ## Time series builder (`part_002` of the source) -/

/-- `TimeSeriesPoint`: a single dated value. -/
structure TimeSeriesPoint where
  Date : Time
  Value : ℚ
deriving DecidableEq, Repr

/-- `TimeSeries`: a named sequence of dated values. -/
structure TimeSeries where
  Name : String
  Points : List TimeSeriesPoint
deriving DecidableEq, Repr

/-- `NewTimeSeries`. -/
def NewTimeSeries (name : String) : TimeSeries := { Name := name, Points := [] }

/-- Insertion into a date-sorted point list (`Add`'s
`append` + `sort.Slice(..., Before)`, rendered as insertion sort). -/
def insertTSPointByDate (pt : TimeSeriesPoint) :
    List TimeSeriesPoint → List TimeSeriesPoint
  | [] => [pt]
  | p :: rest =>
    if pt.Date.toDays < p.Date.toDays then pt :: p :: rest
    else p :: insertTSPointByDate pt rest

/-- Sort a point list ascending by date. -/
def sortTSPointsByDate : List TimeSeriesPoint → List TimeSeriesPoint
  | [] => []
  | p :: rest => insertTSPointByDate p (sortTSPointsByDate rest)

/-- `TimeSeries.Add` of `part_002`: append the point and re-sort by date. -/
def TimeSeries.Add (ts : TimeSeries) (date : Time) (value : ℚ) : TimeSeries :=
  { ts with Points := sortTSPointsByDate (ts.Points ++ [{ Date := date, Value := value }]) }

/-- `PortfolioTimeSeries` of `part_002`. -/
structure PortfolioTimeSeries where
  Value : TimeSeries
  CostBasis : TimeSeries
  UnrealizedGain : TimeSeries
  RealizedGain : TimeSeries
  Holdings : List (String × TimeSeries)
  HoldingValues : List (String × TimeSeries)
deriving DecidableEq, Repr

/-- `NewPortfolioTimeSeries`. -/
def NewPortfolioTimeSeries : PortfolioTimeSeries :=
  { Value := NewTimeSeries "Portfolio Value"
    CostBasis := NewTimeSeries "Cost Basis"
    UnrealizedGain := NewTimeSeries "Unrealized Gain"
    RealizedGain := NewTimeSeries "Realized Gain"
    Holdings := []
    HoldingValues := [] }

/-- `Interval` of `part_002` (named `SeriesInterval` here because Mathlib
already declares `Interval`). -/
inductive SeriesInterval
  | Daily
  | Weekly
  | Monthly
deriving DecidableEq, Repr

/-- A calendar-valid date (what every Go `time.Time` built from a parsed
`YYYY/MM/DD` represents; year ≥ 1 keeps Go's truncated-division leap-year
test in agreement with `Int.emod`). -/
def ValidDate (dt : Date) : Prop :=
  1 ≤ dt.year ∧ 1 ≤ dt.month ∧ dt.month ≤ 12 ∧ 1 ≤ dt.day ∧
    dt.day ≤ daysInMonth dt.year dt.month

instance (dt : Date) : Decidable (ValidDate dt) := by
  unfold ValidDate
  infer_instance

/-- Go `t.AddDate(0, 0, 1)` on a calendar-valid date (the result `time.Time`
is normalized, so day/month/year roll over). -/
def Date.addDay (dt : Date) : Date :=
  if dt.day < daysInMonth dt.year dt.month then
    { year := dt.year, month := dt.month, day := dt.day + 1 }
  else if dt.month < 12 then { year := dt.year, month := dt.month + 1, day := 1 }
  else { year := dt.year + 1, month := 1, day := 1 }

/-- Go `t.AddDate(0, 0, 7)`: seven single-day steps (identical to adding
7 × 24h of absolute time). -/
def Date.addWeek (dt : Date) : Date :=
  dt.addDay.addDay.addDay.addDay.addDay.addDay.addDay

/-- Go `t.AddDate(0, 1, 0)`: increment the month and renormalize exactly as
`time.Date` does — a day overflowing the target month spills into the
following month (October 31 + 1 month = December 1). -/
def Date.addMonth (dt : Date) : Date :=
  let y2 := if dt.month = 12 then dt.year + 1 else dt.year
  let m2 := if dt.month = 12 then 1 else dt.month + 1
  let dim := daysInMonth y2 m2
  if dt.day ≤ dim then { year := y2, month := m2, day := dt.day }
  else if m2 < 12 then { year := y2, month := m2 + 1, day := dt.day - dim }
  else { year := y2 + 1, month := 1, day := dt.day - dim }

/-- `nextDate` of `part_002`: advance by the interval.  (The Go `default`
branch is unreachable for the three declared constants.) -/
def nextDate (date : Date) (interval : SeriesInterval) : Date :=
  match interval with
  | .Daily => date.addDay
  | .Weekly => date.addWeek
  | .Monthly => date.addMonth

/-- The cumulative-realized-gain computation of the `BuildTimeSeries` body:
sum the realized gains of all disposals dated on or before `date`
(recomputed from scratch at every point, as in the source). -/
def realizedGainToDate (p : Portfolio) (date : Time) : ℚ :=
  p.Lots.Disposals.foldl
    (fun t dp => if !dp.DisposalDate.After date then t + dp.RealizedGain else t) 0

/-- The per-commodity series updates of the `BuildTimeSeries` body: for each
holding of the snapshot, get-or-create the commodity's series (Go's nil-map
check) and append the date's value. -/
def addHoldingPoints (date : Time) (hs : List (String × CommodityHolding))
    (m : List (String × TimeSeries)) (nameSfx : String)
    (value : CommodityHolding → ℚ) : List (String × TimeSeries) :=
  hs.foldl
    (fun acc ch =>
      let ts := lookupD acc ch.1 (NewTimeSeries (ch.1 ++ nameSfx))
      mapSet acc ch.1 (ts.Add date (value ch.2))) m

/-- One iteration of the `BuildTimeSeries` loop at `date`: a failing snapshot
is silently skipped (`continue`); a successful one appends to the four
portfolio-level series and the per-commodity series. -/
def buildStep (p : Portfolio) (pts : PortfolioTimeSeries) (date : Time) :
    PortfolioTimeSeries :=
  match p.Snapshot date with
  | .error _ => pts
  | .ok snapshot =>
    { Value := pts.Value.Add date snapshot.TotalMarketValue
      CostBasis := pts.CostBasis.Add date snapshot.TotalCostBasis
      UnrealizedGain := pts.UnrealizedGain.Add date snapshot.TotalUnrealizedGain
      RealizedGain := pts.RealizedGain.Add date (realizedGainToDate p date)
      Holdings :=
        addHoldingPoints date snapshot.Holdings pts.Holdings " Holdings"
          (fun h => h.TotalQuantity)
      HoldingValues :=
        addHoldingPoints date snapshot.Holdings pts.HoldingValues " Value"
          (fun h => h.MarketValue) }

/-- The `for date := startDate; !date.After(endDate); date = nextDate(...)`
loop of `BuildTimeSeries`, rendered with an explicit iteration bound.  The
bound `(endDate.toDays + 1 - startDate.toDays).toNat` is provably never
exhausted for calendar-valid dates, since every step advances the absolute
day count by at least one (`nextDate_spec`), so on the program's dates
this is exactly Go's unbounded loop. -/
def buildLoop (p : Portfolio) (endDate : Time) (interval : SeriesInterval) :
    Nat → Time → PortfolioTimeSeries → PortfolioTimeSeries
  | 0, _, pts => pts
  | fuel + 1, date, pts =>
    if date.After endDate then pts
    else buildLoop p endDate interval fuel (nextDate date interval) (buildStep p pts date)

/-- The dates the `BuildTimeSeries` loop visits (same iteration structure as
`buildLoop`). -/
def stepDates (endDate : Time) (interval : SeriesInterval) : Nat → Time → List Time
  | 0, _ => []
  | fuel + 1, date =>
    if date.After endDate then []
    else date :: stepDates endDate interval fuel (nextDate date interval)

/-- `BuildTimeSeries` of `part_002`. -/
def Portfolio.BuildTimeSeries (p : Portfolio) (startDate endDate : Time)
    (interval : SeriesInterval) : Except String PortfolioTimeSeries :=
  if startDate.Before endDate = false then .error "start date must be before end date"
  else
    .ok (buildLoop p endDate interval (endDate.toDays + 1 - startDate.toDays).toNat
      startDate NewPortfolioTimeSeries)

/-- A series contains a point at the given date. -/
def tsHasDate (ts : TimeSeries) (d : Time) : Prop :=
  ∃ pt ∈ ts.Points, pt.Date = d

/-- Some series of the bundle contains a point at the given date. -/
def mentionsDate (pts : PortfolioTimeSeries) (d : Time) : Prop :=
  tsHasDate pts.Value d ∨ tsHasDate pts.CostBasis d ∨
  tsHasDate pts.UnrealizedGain d ∨ tsHasDate pts.RealizedGain d ∨
  (∃ cts ∈ pts.Holdings, tsHasDate cts.2 d) ∨
  (∃ cts ∈ pts.HoldingValues, tsHasDate cts.2 d)

/-- Start date for the time-series witness. -/
def c8S : Time := { year := 2024, month := 1, day := 1 }

/-- End date for the time-series witness. -/
def c8E : Time := { year := 2024, month := 1, day := 3 }

/-- An empty portfolio for the time-series witness (every snapshot
succeeds trivially). -/
def c8Port : Portfolio :=
  { Lots := NewLotRegistry
    Prices := NewPriceHistory
    CashFlows := []
    AssetAccounts := [] }

/-! ## Lemmas about the disposal loop -/

theorem lookupD_mapSet {α : Type} (m : List (String × α)) (k : String) (v : α) (d : α) :
    lookupD (mapSet m k v) k d = v := by
  induction m with
  | nil => simp [mapSet, lookupD]
  | cons hd tl ih =>
    obtain ⟨k', v'⟩ := hd
    by_cases h : k' = k <;> simp [mapSet, lookupD, h, ih]

theorem lookupD_mapSet_ne {α : Type} (m : List (String × α)) (k k' : String) (v : α) (d : α)
    (h : k ≠ k') : lookupD (mapSet m k v) k' d = lookupD m k' d := by
  induction m with
  | nil => simp [mapSet, lookupD, h]
  | cons hd tl ih =>
    obtain ⟨k0, v0⟩ := hd
    by_cases h0 : k0 = k
    · subst h0
      simp [mapSet, lookupD, h]
    · simp [mapSet, lookupD, h0, ih]


theorem foldl_add_remaining (lots : List Lot) :
    ∀ a : ℚ, lots.foldl (fun total lot => total + lot.RemainingQuantity) a
      = a + sumRemaining lots := by
  induction lots with
  | nil => intro a; simp [sumRemaining]
  | cons l rest ih =>
    intro a
    simp only [List.foldl_cons, ih, sumRemaining, List.map_cons, List.sum_cons]
    ring

theorem RemainingQuantity_eq_sum (r : LotRegistry) (c : String) :
    r.RemainingQuantity c = sumRemaining (r.lotsFor c) := by
  simpa using foldl_add_remaining (r.lotsFor c) 0

theorem disposeLoop_break (dd : Date) (ppu : ℚ) (lots : List Lot) (q : ℚ) (h : q ≤ 0) :
    disposeLoop dd ppu lots q = (lots, []) := by
  cases lots with
  | nil => simp [disposeLoop]
  | cons l rest => simp [disposeLoop, h]

theorem disposeLoop_length (dd : Date) (ppu : ℚ) :
    ∀ (lots : List Lot) (q : ℚ), ((disposeLoop dd ppu lots q).1).length = lots.length := by
  intro lots
  induction lots with
  | nil => intro q; simp [disposeLoop]
  | cons l rest ih =>
    intro q
    by_cases h1 : q ≤ 0
    · simp [disposeLoop, h1]
    · by_cases h2 : l.RemainingQuantity ≤ 0
      · simp [disposeLoop, h1, h2, ih]
      · simp [disposeLoop, h1, h2, ih]

theorem disposeLoop_qty_sum (dd : Date) (ppu : ℚ) :
    ∀ (lots : List Lot) (q : ℚ), 0 < q → q ≤ sumRemaining lots →
      (((disposeLoop dd ppu lots q).2).map (fun d => d.QuantityDisposed)).sum = q := by
  intro lots
  induction lots with
  | nil =>
    intro q hq hle
    simp [sumRemaining] at hle
    linarith
  | cons l rest ih =>
    intro q hq hle
    have h1 : ¬ q ≤ 0 := not_le.mpr hq
    simp only [sumRemaining, List.map_cons, List.sum_cons] at hle
    by_cases h2 : l.RemainingQuantity ≤ 0
    · have hle' : q ≤ sumRemaining rest := by
        simp only [sumRemaining]
        linarith
      simp [disposeLoop, h1, h2, ih q hq hle']
    · by_cases h3 : q < l.RemainingQuantity
      · have hbreak := disposeLoop_break dd ppu rest 0 le_rfl
        have hz : q - q = (0 : ℚ) := by ring
        simp [disposeLoop, h1, h2, h3, hz, hbreak]
      · push_neg at h3
        by_cases h4 : q - l.RemainingQuantity ≤ 0
        · have hq' : q = l.RemainingQuantity := le_antisymm (by linarith) h3
          have hbreak := disposeLoop_break dd ppu rest 0 le_rfl
          simp [disposeLoop, h1, h2, not_lt.mpr h3, hbreak, hq']
        · push_neg at h4
          have hle' : q - l.RemainingQuantity ≤ sumRemaining rest := by
            simp only [sumRemaining]
            linarith
          have hrec := ih (q - l.RemainingQuantity) h4 hle'
          simp [disposeLoop, h1, h2, not_lt.mpr h3, hrec]

theorem disposeLoop_sum_after (dd : Date) (ppu : ℚ) :
    ∀ (lots : List Lot) (q : ℚ),
      sumRemaining ((disposeLoop dd ppu lots q).1) =
        sumRemaining lots -
          (((disposeLoop dd ppu lots q).2).map (fun d => d.QuantityDisposed)).sum := by
  intro lots
  induction lots with
  | nil => intro q; simp [disposeLoop, sumRemaining]
  | cons l rest ih =>
    intro q
    by_cases h1 : q ≤ 0
    · simp [disposeLoop, h1]
    · by_cases h2 : l.RemainingQuantity ≤ 0
      · simp only [disposeLoop, if_neg h1, if_pos h2, sumRemaining, List.map_cons,
          List.sum_cons]
        have := ih q
        simp only [sumRemaining] at this
        rw [this]
        ring
      · by_cases h3 : q < l.RemainingQuantity
        · have hz : q - q = (0 : ℚ) := by ring
          have := ih 0
          simp only [sumRemaining] at this
          simp only [disposeLoop, if_neg h1, if_neg h2, if_pos h3, hz, sumRemaining,
            List.map_cons, List.sum_cons]
          rw [this]
          ring
        · have := ih (q - l.RemainingQuantity)
          simp only [sumRemaining] at this
          simp only [disposeLoop, if_neg h1, if_neg h2, if_neg h3, sumRemaining,
            List.map_cons, List.sum_cons]
          rw [this]
          ring

theorem disposeLoop_record_shape (dd : Date) (ppu : ℚ) :
    ∀ (lots : List Lot) (q : ℚ) (d : LotDisposal), d ∈ (disposeLoop dd ppu lots q).2 →
      d.RealizedGain = d.Proceeds - d.QuantityDisposed * d.Lot.CostPerUnit ∧
      d.Proceeds = d.QuantityDisposed * ppu ∧ d.DisposalDate = dd := by
  intro lots
  induction lots with
  | nil => intro q d hd; simp [disposeLoop] at hd
  | cons l rest ih =>
    intro q d hd
    by_cases h1 : q ≤ 0
    · simp [disposeLoop, h1] at hd
    · by_cases h2 : l.RemainingQuantity ≤ 0
      · simp only [disposeLoop, if_neg h1, if_pos h2] at hd
        exact ih _ d hd
      · by_cases h3 : q < l.RemainingQuantity
        · simp only [disposeLoop, if_neg h1, if_neg h2, if_pos h3, List.mem_cons] at hd
          rcases hd with hd | hd
          · subst hd
            exact ⟨rfl, rfl, rfl⟩
          · exact ih _ d hd
        · simp only [disposeLoop, if_neg h1, if_neg h2, if_neg h3, List.mem_cons] at hd
          rcases hd with hd | hd
          · subst hd
            exact ⟨rfl, rfl, rfl⟩
          · exact ih _ d hd

theorem proceeds_sum_of_shape (ppu : ℚ) :
    ∀ ds : List LotDisposal, (∀ d ∈ ds, d.Proceeds = d.QuantityDisposed * ppu) →
      (ds.map (fun d => d.Proceeds)).sum = (ds.map (fun d => d.QuantityDisposed)).sum * ppu := by
  intro ds
  induction ds with
  | nil => intro _; simp
  | cons d rest ih =>
    intro h
    simp only [List.map_cons, List.sum_cons, h d (by simp),
      ih (fun x hx => h x (by simp [hx]))]
    ring


theorem disposeLoop_fifo (dd : Date) (ppu : ℚ) :
    ∀ (lots : List Lot) (q : ℚ) (i j : Nat), j < i →
      (((disposeLoop dd ppu lots q).1).getD i defaultLot).RemainingQuantity ≠
        (lots.getD i defaultLot).RemainingQuantity →
      (((disposeLoop dd ppu lots q).1).getD j defaultLot).RemainingQuantity = 0 ∨
        ((((disposeLoop dd ppu lots q).1).getD j defaultLot).RemainingQuantity =
            (lots.getD j defaultLot).RemainingQuantity ∧
          (lots.getD j defaultLot).RemainingQuantity ≤ 0) := by
  intro lots
  induction lots with
  | nil =>
    intro q i j hji hne
    simp [disposeLoop] at hne
  | cons l rest ih =>
    intro q i j hji hne
    by_cases h1 : q ≤ 0
    · rw [disposeLoop_break dd ppu (l :: rest) q h1] at hne
      exact absurd rfl hne
    · by_cases h2 : l.RemainingQuantity ≤ 0
      · simp only [disposeLoop, if_neg h1, if_pos h2] at hne ⊢
        match i, j, hji with
        | 0, j, hji => omega
        | Nat.succ i2, 0, hji =>
          right
          simpa using h2
        | Nat.succ i2, Nat.succ j2, hji =>
          simp only [List.getD_cons_succ] at hne ⊢
          exact ih q i2 j2 (by omega) hne
      · by_cases h3 : q < l.RemainingQuantity
        · simp only [disposeLoop, if_neg h1, if_neg h2, if_pos h3, sub_self] at hne ⊢
          rw [disposeLoop_break dd ppu rest 0 le_rfl] at hne ⊢
          match i, j, hji with
          | 0, j, hji => omega
          | Nat.succ i2, j, hji =>
            simp only [List.getD_cons_succ] at hne
            exact absurd rfl hne
        · simp only [disposeLoop, if_neg h1, if_neg h2, if_neg h3] at hne ⊢
          match i, j, hji with
          | 0, j, hji => omega
          | Nat.succ i2, 0, hji =>
            left
            simp
          | Nat.succ i2, Nat.succ j2, hji =>
            simp only [List.getD_cons_succ] at hne ⊢
            exact ih (q - l.RemainingQuantity) i2 j2 (by omega) hne

theorem disposeFIFO_ok_elim (r : LotRegistry) (c : String) (q : ℚ) (dd : Date) (tp : ℚ)
    (ln : Nat) (ds : List LotDisposal) (r2 : LotRegistry)
    (hok : r.DisposeFIFO c q dd tp ln = (.ok ds, r2)) :
    0 < q ∧ q ≤ r.RemainingQuantity c ∧
    ds = (disposeLoop dd (tp / q) (r.lotsFor c) q).2 ∧
    r2.lotsFor c = (disposeLoop dd (tp / q) (r.lotsFor c) q).1 ∧
    r2.Disposals = r.Disposals ++ ds := by
  by_cases h1 : q ≤ 0
  · simp [LotRegistry.DisposeFIFO, h1] at hok
  · by_cases h2 : r.RemainingQuantity c < q
    · simp [LotRegistry.DisposeFIFO, h1, h2] at hok
    · simp only [LotRegistry.DisposeFIFO, if_neg h1, if_neg h2, Prod.mk.injEq,
        Except.ok.injEq] at hok
      obtain ⟨hds, hr2⟩ := hok
      refine ⟨not_le.mp h1, not_lt.mp h2, hds.symm, ?_, ?_⟩
      · rw [← hr2]
        simp only [LotRegistry.lotsFor, lookupD_mapSet]
      · rw [← hr2, hds]

/-- Claim C1: after a successful `DisposeFIFO(c, Q, …)` on a registry whose lot list
for `c` is sorted ascending by acquisition date (the invariant `AddLot`
maintains) with nonnegative remaining quantities, the total remaining
quantity for `c` decreases by exactly `Q`, and quantity is drawn FIFO: a lot
is consumed (its remaining quantity changed) only if every lot of `c` with a
strictly earlier acquisition date is left with remaining quantity zero. -/
theorem disposeFIFO_fifo_invariant (r : LotRegistry) (c : String) (q : ℚ) (dd : Date)
    (tp : ℚ) (ln : Nat) (ds : List LotDisposal) (r2 : LotRegistry)
    (hsorted : (r.lotsFor c).Pairwise
      (fun a b => a.AcquisitionDate.toDays ≤ b.AcquisitionDate.toDays))
    (hnonneg : ∀ l ∈ r.lotsFor c, 0 ≤ l.RemainingQuantity)
    (hok : r.DisposeFIFO c q dd tp ln = (.ok ds, r2)) :
    r2.RemainingQuantity c = r.RemainingQuantity c - q ∧
    (∀ i j : Nat, i < (r.lotsFor c).length → j < (r.lotsFor c).length →
      ((r.lotsFor c).getD j defaultLot).AcquisitionDate.toDays <
        ((r.lotsFor c).getD i defaultLot).AcquisitionDate.toDays →
      ((r2.lotsFor c).getD i defaultLot).RemainingQuantity ≠
        ((r.lotsFor c).getD i defaultLot).RemainingQuantity →
      ((r2.lotsFor c).getD j defaultLot).RemainingQuantity = 0) := by
  obtain ⟨hq, hle, hds, hlots, hdisp⟩ :=
    disposeFIFO_ok_elim r c q dd tp ln ds r2 hok
  constructor
  · rw [RemainingQuantity_eq_sum, hlots, disposeLoop_sum_after,
      disposeLoop_qty_sum dd (tp / q) (r.lotsFor c) q hq
        (by rw [← RemainingQuantity_eq_sum]; exact hle),
      RemainingQuantity_eq_sum]
  · intro i j hi hj hdate hne
    have hji : j < i := by
      rcases Nat.lt_trichotomy j i with h | h | h
      · exact h
      · subst h
        exact absurd hdate (lt_irrefl _)
      · have := (List.pairwise_iff_get.mp hsorted) ⟨i, hi⟩ ⟨j, hj⟩ h
        rw [List.getD_eq_get _ _ hi, List.getD_eq_get _ _ hj] at hdate
        exact absurd hdate (not_lt.mpr this)
    rw [hlots] at hne ⊢
    rcases disposeLoop_fifo dd (tp / q) (r.lotsFor c) q i j hji hne with h | ⟨heq, hle0⟩
    · exact h
    · rw [heq]
      have hmem : (r.lotsFor c).getD j defaultLot ∈ r.lotsFor c := by
        rw [List.getD_eq_get _ _ hj]
        exact List.get_mem _ _ _
      exact le_antisymm hle0 (hnonneg _ hmem)

/-- Claim C3: every disposal record created by one successful `DisposeFIFO`
call satisfies `realizedGain = proceeds - quantityDisposed * lot.costPerUnit`,
and the proceeds of the records of that call sum exactly (in exact rational
arithmetic) to the requested `totalProceeds`. -/
theorem disposeFIFO_gain_proceeds (r : LotRegistry) (c : String) (q : ℚ) (dd : Date)
    (tp : ℚ) (ln : Nat) (ds : List LotDisposal) (r2 : LotRegistry)
    (hok : r.DisposeFIFO c q dd tp ln = (.ok ds, r2)) :
    (∀ d ∈ ds, d.RealizedGain = d.Proceeds - d.QuantityDisposed * d.Lot.CostPerUnit) ∧
    (ds.map (fun d => d.Proceeds)).sum = tp := by
  obtain ⟨hq, hle, hds, hlots, hdisp⟩ := disposeFIFO_ok_elim r c q dd tp ln ds r2 hok
  subst hds
  constructor
  · intro d hd
    exact (disposeLoop_record_shape dd (tp / q) (r.lotsFor c) q d hd).1
  · rw [proceeds_sum_of_shape (tp / q) _
        (fun d hd => (disposeLoop_record_shape dd (tp / q) (r.lotsFor c) q d hd).2.1),
      disposeLoop_qty_sum dd (tp / q) (r.lotsFor c) q hq
        (by rw [← RemainingQuantity_eq_sum]; exact hle)]
    rw [mul_comm]
    exact div_mul_cancel₀ tp (ne_of_gt hq)

/-- Claim C10: `DisposeFIFO` returns an error exactly when the quantity is not
positive or exceeds the commodity's total remaining quantity, and on any error
the registry is exactly as before the call (validation happens entirely before
any mutation). -/
theorem disposeFIFO_error_characterization (r : LotRegistry) (c : String) (q : ℚ)
    (dd : Date) (tp : ℚ) (ln : Nat) :
    ((∃ e, (r.DisposeFIFO c q dd tp ln).1 = .error e) ↔
      q ≤ 0 ∨ r.RemainingQuantity c < q) ∧
    ∀ e, (r.DisposeFIFO c q dd tp ln).1 = .error e → (r.DisposeFIFO c q dd tp ln).2 = r := by
  by_cases h1 : q ≤ 0
  · refine ⟨⟨fun _ => Or.inl h1,
      fun _ => ⟨LotError.quantityNotPositive ln q, by simp [LotRegistry.DisposeFIFO, h1]⟩⟩, ?_⟩
    intro e he
    simp [LotRegistry.DisposeFIFO, h1]
  · by_cases h2 : r.RemainingQuantity c < q
    · refine ⟨⟨fun _ => Or.inr h2,
        fun _ => ⟨LotError.insufficientQuantity ln c q (r.RemainingQuantity c),
          by simp [LotRegistry.DisposeFIFO, h1, h2]⟩⟩, ?_⟩
      intro e he
      simp [LotRegistry.DisposeFIFO, h1, h2]
    · constructor
      · constructor
        · intro ⟨e, he⟩
          simp [LotRegistry.DisposeFIFO, h1, h2] at he
        · intro h
          exact absurd h (by simp [h1, h2])
      · intro e he
        simp [LotRegistry.DisposeFIFO, h1, h2] at he



theorem disposeFIFO_fifo_invariant_witness :
    c1Res.2.RemainingQuantity "BTC" = c1Reg.RemainingQuantity "BTC" - 3 / 2 ∧
    (∀ i j : Nat, i < (c1Reg.lotsFor "BTC").length → j < (c1Reg.lotsFor "BTC").length →
      ((c1Reg.lotsFor "BTC").getD j defaultLot).AcquisitionDate.toDays <
        ((c1Reg.lotsFor "BTC").getD i defaultLot).AcquisitionDate.toDays →
      ((c1Res.2.lotsFor "BTC").getD i defaultLot).RemainingQuantity ≠
        ((c1Reg.lotsFor "BTC").getD i defaultLot).RemainingQuantity →
      ((c1Res.2.lotsFor "BTC").getD j defaultLot).RemainingQuantity = 0) :=
  disposeFIFO_fifo_invariant c1Reg "BTC" (3 / 2) { year := 2024, month := 3, day := 1 }
    90000 7 c1Ds c1Res.2 (by decide) (by decide)
    (by norm_num [c1Res, c1Ds, c1Reg, LotRegistry.DisposeFIFO, LotRegistry.RemainingQuantity,
      LotRegistry.lotsFor, lookupD, disposeLoop, mapSet, Except.toOption])

theorem disposeFIFO_gain_proceeds_witness :
    (∀ d ∈ c1Ds, d.RealizedGain = d.Proceeds - d.QuantityDisposed * d.Lot.CostPerUnit) ∧
    (c1Ds.map (fun d => d.Proceeds)).sum = 90000 :=
  disposeFIFO_gain_proceeds c1Reg "BTC" (3 / 2) { year := 2024, month := 3, day := 1 }
    90000 7 c1Ds c1Res.2
    (by norm_num [c1Res, c1Ds, c1Reg, LotRegistry.DisposeFIFO, LotRegistry.RemainingQuantity,
      LotRegistry.lotsFor, lookupD, disposeLoop, mapSet, Except.toOption])

theorem disposeFIFO_error_characterization_witness :
    (c1Reg.DisposeFIFO "BTC" 5 { year := 2024, month := 3, day := 1 } 100 7).2 = c1Reg :=
  (disposeFIFO_error_characterization c1Reg "BTC" 5 { year := 2024, month := 3, day := 1 }
      100 7).2
    (LotError.insufficientQuantity 7 "BTC" 5 3)
    (by norm_num [c1Reg, LotRegistry.DisposeFIFO, LotRegistry.RemainingQuantity,
      LotRegistry.lotsFor, lookupD, disposeLoop, mapSet])

/-- Claim C2 is violated by the code: extracting lots for a disposal of a
commodity with no prior lots does not complete silently; `DisposeFIFO` treats
the empty lot history as remaining quantity `0` and `extractLots` propagates
its `insufficient quantity` error.  This evaluates the code at the exact input
of the repository's regression test `TestExtractLots_DisposalWithoutPriorLots`
(selling 1.21932430 ZEC with no ZEC lots), which asserts that no error occurs
— the code contradicts its own test, and the spec describes the intended
behavior. -/
theorem extractLots_no_prior_lots_errors :
    extractLots ["Assets:Savings:"] NewLotRegistry [c2Entry] =
      .error (LotError.insufficientQuantity 6 "ZEC" ((121932430 : ℚ) / 100000000) 0) := by
  have hpre : hasPrefixGo "Assets:Savings:" "Assets:Savings:Cryptocurrencies:Zcash"
      = true := by decide
  norm_num [extractLots, extractLotsEntry, extractLotsAccounts, extractLotsAccount,
    isAssetAccount, LedgerEntry.effDate, c2Entry, NewLotRegistry,
    LotRegistry.DisposeFIFO, LotRegistry.RemainingQuantity, LotRegistry.lotsFor,
    lookupD, hpre]
  rfl

/-! ## Lemmas about the elided-account scan -/

theorem findElided_all_nonempty :
    ∀ (accs : List LedgerAccount) (i0 : Nat) (acc : Option Nat),
      (∀ a ∈ accs, a.Commodity ≠ "") → findElidedIdx accs i0 acc = .ok acc := by
  intro accs
  induction accs with
  | nil => intro i0 acc _; rfl
  | cons a rest ih =>
    intro i0 acc h
    have ha : a.Commodity ≠ "" := h a (by simp)
    simp only [findElidedIdx, if_neg ha]
    exact ih (i0 + 1) acc (fun x hx => h x (by simp [hx]))

theorem findElided_skip :
    ∀ (pre rest : List LedgerAccount) (i0 : Nat) (acc : Option Nat),
      (∀ a ∈ pre, a.Commodity ≠ "") →
      findElidedIdx (pre ++ rest) i0 acc = findElidedIdx rest (i0 + pre.length) acc := by
  intro pre
  induction pre with
  | nil => intro rest i0 acc _; simp
  | cons a pre2 ih =>
    intro rest i0 acc h
    have ha : a.Commodity ≠ "" := h a (by simp)
    rw [List.cons_append]
    simp only [findElidedIdx, if_neg ha]
    rw [show i0 + (a :: pre2).length = i0 + 1 + pre2.length by simp; omega]
    exact ih rest (i0 + 1) acc (fun x hx => h x (by simp [hx]))

theorem findElided_err :
    ∀ (accs : List LedgerAccount) (i0 : Nat) (acc : Option Nat),
      (acc.isSome = true ∧ 1 ≤ countElided accs) ∨ 2 ≤ countElided accs →
      findElidedIdx accs i0 acc = .error () := by
  intro accs
  induction accs with
  | nil =>
    intro i0 acc h
    simp [countElided] at h
  | cons a rest ih =>
    intro i0 acc h
    by_cases ha : a.Commodity = ""
    · match acc with
      | some k => simp [findElidedIdx, ha]
      | none =>
        simp only [findElidedIdx, if_pos ha]
        apply ih
        left
        refine ⟨rfl, ?_⟩
        simp only [countElided, if_pos ha, Option.isSome_none] at h
        rcases h with ⟨hfalse, _⟩ | h
        · exact absurd hfalse (by simp)
        · omega
    · simp only [countElided, if_neg ha, Nat.zero_add] at h
      simp only [findElidedIdx, if_neg ha]
      exact ih (i0 + 1) acc h

theorem listModify_comp {α : Type} (f g : α → α) :
    ∀ (i : Nat) (l : List α), listModify f i (listModify g i l) =
      listModify (fun a => f (g a)) i l := by
  intro i
  induction i with
  | zero => intro l; cases l <;> simp [listModify]
  | succ n ih => intro l; cases l <;> simp [listModify, ih]

/-- Claim C4: for an entry with no elided account, balance validation skips
the check entirely when the per-commodity sums of price-converted balance
amounts span more than one commodity, and for a single commodity accepts the
entry exactly when the sum is within ±0.005 of zero, otherwise failing with
an error naming the offending commodity and the entry's starting line. -/
theorem validateBalance_no_elided (e : LedgerEntry) (startLine : Nat)
    (hne : ∀ a ∈ e.Accounts, a.Commodity ≠ "") :
    (1 < (computeSums e.Accounts 0 none []).length →
      validateBalance e startLine = .ok e.Accounts) ∧
    (∀ (c0 : String) (s : ℚ), computeSums e.Accounts 0 none [] = [(c0, s)] →
      (-balanceEpsilon ≤ s ∧ s ≤ balanceEpsilon →
        validateBalance e startLine = .ok e.Accounts) ∧
      ((s < -balanceEpsilon ∨ balanceEpsilon < s) →
        validateBalance e startLine = .error (.notBalanced startLine c0 s))) := by
  have hfind : findElidedIdx e.Accounts 0 none = .ok none :=
    findElided_all_nonempty e.Accounts 0 none hne
  constructor
  · intro hlen
    simp only [validateBalance, hfind, if_pos hlen]
  · intro c0 s hsum
    constructor
    · intro hin
      have hnot : ¬ (s < -balanceEpsilon ∨ balanceEpsilon < s) := by
        push_neg
        exact hin
      simp only [validateBalance, hfind, hsum]
      simp [hnot]
    · intro hout
      simp only [validateBalance, hfind, hsum]
      simp [hout]

/-- Claim C5: for an entry with exactly one elided account at index
`pre.length`: a single resulting commodity makes validation set the elided
account's amount to the negated sum and its commodity to that commodity (and
mark it elided); multiple commodities leave amount and commodity untouched
(entry balanced by construction); zero non-elided sums fail with the
`cannot infer` error; and any entry with more than one elided account always
fails. -/
theorem validateBalance_elided :
    (∀ (e : LedgerEntry) (startLine : Nat) (pre : List LedgerAccount)
        (a0 : LedgerAccount) (post : List LedgerAccount),
      e.Accounts = pre ++ a0 :: post →
      (∀ a ∈ pre, a.Commodity ≠ "") → a0.Commodity = "" →
      (∀ a ∈ post, a.Commodity ≠ "") →
      (∀ (c0 : String) (s : ℚ),
        computeSums e.Accounts 0 (some pre.length) [] = [(c0, s)] →
        validateBalance e startLine =
          .ok (listModify (fun a => { a with Amount := -s, Commodity := c0, Elided := true })
            pre.length e.Accounts)) ∧
      (1 < (computeSums e.Accounts 0 (some pre.length) []).length →
        validateBalance e startLine =
          .ok (listModify (fun a => { a with Elided := true }) pre.length e.Accounts)) ∧
      (computeSums e.Accounts 0 (some pre.length) [] = [] →
        validateBalance e startLine = .error (.cannotInfer startLine))) ∧
    (∀ (e : LedgerEntry) (startLine : Nat),
      2 ≤ countElided e.Accounts →
      validateBalance e startLine = .error (.multipleElided startLine)) := by
  constructor
  · intro e startLine pre a0 post hdecomp hpre ha0 hpost
    have hfind : findElidedIdx e.Accounts 0 none = .ok (some pre.length) := by
      rw [hdecomp, findElided_skip pre (a0 :: post) 0 none hpre]
      simp only [findElidedIdx, if_pos ha0]
      rw [findElided_all_nonempty post (0 + pre.length + 1) (some (0 + pre.length)) hpost]
      simp
    refine ⟨?_, ?_, ?_⟩
    · intro c0 s hsum
      simp only [validateBalance, hfind, hsum]
      simp only [List.length_cons, List.length_nil]
      rw [if_neg (by omega)]
      simp only [if_pos rfl, if_true, listModify_comp]
    · intro hlen
      simp only [validateBalance, hfind]
      rw [if_neg (by omega), if_neg (by omega)]
    · intro hsum
      simp only [validateBalance, hfind, hsum]
      simp
  · intro e startLine h2
    have hfind : findElidedIdx e.Accounts 0 none = .error () :=
      findElided_err e.Accounts 0 none (Or.inr h2)
    simp only [validateBalance, hfind]

theorem validateBalance_no_elided_witness :
    validateBalance c4Entry 3 = .ok c4Entry.Accounts :=
  ((validateBalance_no_elided c4Entry 3 (by decide)).2 "EUR" 0
      (by
        norm_num [c4Entry, c4Food, c4Cash, computeSums, LedgerAccount.balanceAmount,
          mapSet, lookupD]
        all_goals simp)).1
    (by norm_num [balanceEpsilon])

theorem validateBalance_elided_witness :
    validateBalance c5Entry 3 =
      .ok (listModify
        (fun a => { a with Amount := -(10 : ℚ), Commodity := "EUR", Elided := true })
        1 c5Entry.Accounts) :=
  ((validateBalance_elided.1 c5Entry 3 [c4Food] c5Cash [] rfl (by decide) (by decide)
      (by simp)).1 "EUR" 10
    (by
      norm_num [c5Entry, c4Food, c5Cash, computeSums, LedgerAccount.balanceAmount,
        mapSet, lookupD]))

/-! ## Lemmas about the binary search and `GetPrice` -/

theorem sortSearchLoop_spec (f : Nat → Bool) :
    ∀ (d i j : Nat), j - i ≤ d → i ≤ j →
      (∀ k < i, f k = false) →
      (∀ a b : Nat, a ≤ b → b < j → f a = true → f b = true) →
      i ≤ sortSearchLoop f i j ∧ sortSearchLoop f i j ≤ j ∧
      (∀ k < sortSearchLoop f i j, f k = false) ∧
      (sortSearchLoop f i j < j → f (sortSearchLoop f i j) = true) := by
  intro d
  induction d with
  | zero =>
    intro i j hd hij0 hpre hmono
    have hij : ¬ i < j := by omega
    rw [sortSearchLoop, dif_neg hij]
    exact ⟨le_rfl, hij0, hpre, fun h => absurd h hij⟩
  | succ n ih =>
    intro i j hd hij0 hpre hmono
    by_cases hij : i < j
    · rw [sortSearchLoop, dif_pos hij]
      simp only []
      by_cases hf : f ((i + j) / 2) = true
      · rw [if_pos hf]
        obtain ⟨h1, h2, h3, h4⟩ := ih i ((i + j) / 2) (by omega) (by omega) hpre
          (fun a b hab hb hfa => hmono a b hab (by omega) hfa)
        refine ⟨h1, by omega, h3, ?_⟩
        intro hlt
        by_cases hres : sortSearchLoop f i ((i + j) / 2) < (i + j) / 2
        · exact h4 hres
        · have heq : sortSearchLoop f i ((i + j) / 2) = (i + j) / 2 := by omega
          rw [heq]
          exact hf
      · rw [if_neg hf]
        have hpre2 : ∀ k < (i + j) / 2 + 1, f k = false := by
          intro k hk
          by_contra hcont
          have hk2 : f k = true := by
            revert hcont
            cases f k <;> simp
          exact hf (hmono k ((i + j) / 2) (by omega) (by omega) hk2)
        obtain ⟨h1, h2, h3, h4⟩ := ih ((i + j) / 2 + 1) j (by omega) (by omega) hpre2 hmono
        exact ⟨by omega, h2, h3, h4⟩
    · rw [sortSearchLoop, dif_neg hij]
      exact ⟨le_rfl, hij0, hpre, fun h => absurd h hij⟩

theorem getPrice_unfold (h : PriceHistory) (c : String) (date : Time)
    (hne : h.pricesFor c ≠ []) :
    h.GetPrice c date =
      (if sortSearch (h.pricesFor c).length
          (fun i => ((h.pricesFor c).getD i defaultPoint).Date.After date) = 0
       then .error (.noPriceOnOrBefore c date)
       else .ok ((h.pricesFor c).getD (sortSearch (h.pricesFor c).length
          (fun i => ((h.pricesFor c).getD i defaultPoint).Date.After date) - 1)
          defaultPoint).Price) := by
  simp only [PriceHistory.GetPrice]
  rw [if_neg (by simpa using hne)]

/-- Claim C6: for a commodity whose point list is sorted by date (the
invariant `AddPrice` maintains): an empty point list is a `no history` error;
a query date before the first point is a `no price on or before` error; and
otherwise `GetPrice` returns the price of the latest point with date ≤ the
query date (the point at the greatest index whose date is ≤ the query date —
in particular, past the last point, the last point's price). -/
theorem getPrice_latest (h : PriceHistory) (c : String) (date : Time)
    (hsorted : (h.pricesFor c).Pairwise (fun a b => a.Date.toDays ≤ b.Date.toDays)) :
    (h.pricesFor c = [] → h.GetPrice c date = .error (.noHistory c)) ∧
    (∀ p0 pts, h.pricesFor c = p0 :: pts → date.toDays < p0.Date.toDays →
      h.GetPrice c date = .error (.noPriceOnOrBefore c date)) ∧
    (∀ p0 pts, h.pricesFor c = p0 :: pts → p0.Date.toDays ≤ date.toDays →
      ∃ k, k < (h.pricesFor c).length ∧
        ((h.pricesFor c).getD k defaultPoint).Date.toDays ≤ date.toDays ∧
        (∀ k2 < (h.pricesFor c).length,
          ((h.pricesFor c).getD k2 defaultPoint).Date.toDays ≤ date.toDays → k2 ≤ k) ∧
        h.GetPrice c date = .ok ((h.pricesFor c).getD k defaultPoint).Price) := by
  have hmono : ∀ a b : Nat, a ≤ b → b < (h.pricesFor c).length →
      ((h.pricesFor c).getD a defaultPoint).Date.After date = true →
      ((h.pricesFor c).getD b defaultPoint).Date.After date = true := by
    intro a b hab hb hfa
    have ha : a < (h.pricesFor c).length := by omega
    simp only [Date.After, decide_eq_true_eq] at hfa ⊢
    rcases Nat.lt_or_ge a b with hlt | hge
    · have := (List.pairwise_iff_get.mp hsorted) ⟨a, ha⟩ ⟨b, hb⟩ hlt
      rw [List.getD_eq_get _ _ ha] at hfa
      rw [List.getD_eq_get _ _ hb]
      omega
    · have hab2 : a = b := by omega
      subst hab2
      exact hfa
  obtain ⟨hb1, hb2, hb3, hb4⟩ := sortSearchLoop_spec
    (fun i => ((h.pricesFor c).getD i defaultPoint).Date.After date)
    (h.pricesFor c).length 0 (h.pricesFor c).length (by omega) (by omega)
    (by omega) hmono
  refine ⟨?_, ?_, ?_⟩
  · intro hnil
    simp [PriceHistory.GetPrice, hnil]
  · intro p0 pts hcons hbefore
    have hg0 : (h.pricesFor c).getD 0 defaultPoint = p0 := by rw [hcons]; rfl
    have hf0 : ((h.pricesFor c).getD 0 defaultPoint).Date.After date = true := by
      rw [hg0]
      simp only [Date.After, decide_eq_true_eq]
      exact hbefore
    have hidx0 : sortSearchLoop
        (fun i => ((h.pricesFor c).getD i defaultPoint).Date.After date) 0
        (h.pricesFor c).length = 0 := by
      rcases Nat.eq_zero_or_pos (sortSearchLoop
        (fun i => ((h.pricesFor c).getD i defaultPoint).Date.After date) 0
        (h.pricesFor c).length) with h0 | hpos
      · exact h0
      · have := hb3 0 hpos
        simp only at this
        rw [this] at hf0
        exact absurd hf0 (by simp)
    rw [getPrice_unfold h c date (by rw [hcons]; simp)]
    rw [if_pos (by simpa [sortSearch] using hidx0)]
  · intro p0 pts hcons hfirst
    have hg0 : (h.pricesFor c).getD 0 defaultPoint = p0 := by rw [hcons]; rfl
    have hf0 : ((h.pricesFor c).getD 0 defaultPoint).Date.After date = false := by
      rw [hg0]
      simp only [Date.After]
      simp only [decide_eq_false_iff_not, not_lt]
      exact hfirst
    have hnpos : 0 < (h.pricesFor c).length := by rw [hcons]; simp
    have hidxpos : 0 < sortSearchLoop
        (fun i => ((h.pricesFor c).getD i defaultPoint).Date.After date) 0
        (h.pricesFor c).length := by
      rcases Nat.eq_zero_or_pos (sortSearchLoop
        (fun i => ((h.pricesFor c).getD i defaultPoint).Date.After date) 0
        (h.pricesFor c).length) with h0 | hpos
      · exfalso
        have hlt : sortSearchLoop
            (fun i => ((h.pricesFor c).getD i defaultPoint).Date.After date) 0
            (h.pricesFor c).length < (h.pricesFor c).length := by omega
        have := hb4 hlt
        rw [h0] at this
        rw [this] at hf0
        exact absurd hf0 (by simp)
      · exact hpos
    refine ⟨sortSearchLoop
        (fun i => ((h.pricesFor c).getD i defaultPoint).Date.After date) 0
        (h.pricesFor c).length - 1, by omega, ?_, ?_, ?_⟩
    · have := hb3 (sortSearchLoop
        (fun i => ((h.pricesFor c).getD i defaultPoint).Date.After date) 0
        (h.pricesFor c).length - 1) (by omega)
      simp only [Date.After, decide_eq_false_iff_not, not_lt] at this
      exact this
    · intro k2 hk2 hle
      by_contra hgt
      push_neg at hgt
      have hidxlt : sortSearchLoop
          (fun i => ((h.pricesFor c).getD i defaultPoint).Date.After date) 0
          (h.pricesFor c).length < (h.pricesFor c).length := by omega
      have hfidx := hb4 hidxlt
      simp only at hfidx
      have hfk2 := hmono _ k2 (by omega) hk2 hfidx
      simp only [Date.After, decide_eq_true_eq] at hfk2
      omega
    · rw [getPrice_unfold h c date (by rw [hcons]; simp)]
      rw [if_neg (by simp only [sortSearch]; omega)]
      simp only [sortSearch]

theorem getPrice_latest_witness :
    ∃ k, k < (c6Hist.pricesFor "BTC").length ∧
      ((c6Hist.pricesFor "BTC").getD k defaultPoint).Date.toDays ≤
        (Date.mk 2024 3 1).toDays ∧
      (∀ k2 < (c6Hist.pricesFor "BTC").length,
        ((c6Hist.pricesFor "BTC").getD k2 defaultPoint).Date.toDays ≤
          (Date.mk 2024 3 1).toDays → k2 ≤ k) ∧
      c6Hist.GetPrice "BTC" (Date.mk 2024 3 1) =
        .ok ((c6Hist.pricesFor "BTC").getD k defaultPoint).Price :=
  (getPrice_latest c6Hist "BTC" (Date.mk 2024 3 1) (by decide)).2.2 c6P0 [c6P1]
    rfl (by decide)

/-! ## Lemmas about `PeriodReturns` -/

theorem foldl_if_filter_sum {α : Type} (p : α → Bool) (f : α → ℚ) :
    ∀ (l : List α) (a : ℚ),
      l.foldl (fun t x => if p x then t + f x else t) a = a + ((l.filter p).map f).sum := by
  intro l
  induction l with
  | nil => intro a; simp
  | cons x rest ih =>
    intro a
    by_cases hx : p x
    · simp [List.filter_cons, hx, ih]
      ring
    · simp [List.filter_cons, hx, ih]

/-- Claim C7: `PeriodReturns(start, end)` errors unless `start` is strictly
before `end`; on success, its fields satisfy: start/end values are the
snapshots' total market values; `NetCashFlow` sums the cash flows dated
strictly after `start` and on/before `end`;
`AbsoluteReturn = EndValue - StartValue - NetCashFlow`; and `Return` is
`AbsoluteReturn / (StartValue + weightedCashFlow)` with each in-period flow
weighted by days-remaining over total days, falling back to
`AbsoluteReturn / NetCashFlow` when that denominator is ≤ 0 and
`AbsoluteReturn ≠ 0`. -/
theorem periodReturns_spec (p : Portfolio) (s e : Time) :
    (s.Before e = false → p.PeriodReturns s e = .error .startNotBeforeEnd) ∧
    (∀ (pr : PeriodReturn) (ss es : PortfolioSnapshot),
      p.Snapshot s = .ok ss → p.Snapshot e = .ok es →
      p.PeriodReturns s e = .ok pr →
      pr.StartValue = ss.TotalMarketValue ∧
      pr.EndValue = es.TotalMarketValue ∧
      pr.NetCashFlow =
        ((p.CashFlows.filter (fun cf => cf.Date.After s && !cf.Date.After e)).map
          (fun cf => cf.Amount)).sum ∧
      pr.AbsoluteReturn = pr.EndValue - pr.StartValue - pr.NetCashFlow ∧
      (let wcf :=
        ((p.CashFlows.filter (fun cf => cf.Date.After s && !cf.Date.After e)).map
          (fun cf => cf.Amount *
            (((e.toDays - cf.Date.toDays : Int) : ℚ) / ((e.toDays - s.toDays : Int) : ℚ)))).sum
       (0 < pr.StartValue + wcf → pr.Return = pr.AbsoluteReturn / (pr.StartValue + wcf)) ∧
       (pr.StartValue + wcf ≤ 0 → pr.AbsoluteReturn ≠ 0 →
        pr.Return = pr.AbsoluteReturn / pr.NetCashFlow))) := by
  constructor
  · intro hnb
    simp [Portfolio.PeriodReturns, hnb]
  · intro pr ss es hss hes hok
    by_cases hb : s.Before e = false
    · simp [Portfolio.PeriodReturns, hb] at hok
    · simp only [Portfolio.PeriodReturns, hss, hes] at hok
      rw [if_neg hb] at hok
      simp only [Except.ok.injEq] at hok
      have hncf := foldl_if_filter_sum
        (fun cf : CashFlow => cf.Date.After s && !cf.Date.After e)
        (fun cf => cf.Amount) p.CashFlows 0
      have hwcf := foldl_if_filter_sum
        (fun cf : CashFlow => cf.Date.After s && !cf.Date.After e)
        (fun cf => cf.Amount *
          (((e.toDays - cf.Date.toDays : Int) : ℚ) / ((e.toDays - s.toDays : Int) : ℚ)))
        p.CashFlows 0
      rw [zero_add] at hncf hwcf
      subst hok
      refine ⟨rfl, rfl, hncf, by simp [hncf], ?_⟩
      intro wcf
      constructor
      · intro hpos
        have : (0 : ℚ) <
            ss.TotalMarketValue + p.CashFlows.foldl
              (fun t cf =>
                if cf.Date.After s && !cf.Date.After e then
                  t + cf.Amount * (((e.toDays - cf.Date.toDays : Int) : ℚ) /
                    ((e.toDays - s.toDays : Int) : ℚ))
                else t) 0 := by
          rw [hwcf]
          simpa [wcf] using hpos
        simp only [if_pos this]
        rw [hncf, hwcf]
      · intro hnonpos habs
        have hnot : ¬ (0 : ℚ) <
            ss.TotalMarketValue + p.CashFlows.foldl
              (fun t cf =>
                if cf.Date.After s && !cf.Date.After e then
                  t + cf.Amount * (((e.toDays - cf.Date.toDays : Int) : ℚ) /
                    ((e.toDays - s.toDays : Int) : ℚ))
                else t) 0 := by
          rw [hwcf]
          simpa [wcf] using hnonpos
        have habs2 : es.TotalMarketValue - ss.TotalMarketValue -
            p.CashFlows.foldl
              (fun t cf => if cf.Date.After s && !cf.Date.After e then t + cf.Amount else t)
              0 ≠ 0 := habs
        simp only [if_neg hnot, if_pos habs2]

set_option maxRecDepth 2000 in
theorem periodReturns_spec_witness :
    c7PR.StartValue = c7SS.TotalMarketValue ∧
    c7PR.EndValue = c7ES.TotalMarketValue ∧
    c7PR.NetCashFlow =
      ((c7Port.CashFlows.filter (fun cf => cf.Date.After c7S && !cf.Date.After c7E)).map
        (fun cf => cf.Amount)).sum ∧
    c7PR.AbsoluteReturn = c7PR.EndValue - c7PR.StartValue - c7PR.NetCashFlow ∧
    (let wcf :=
      ((c7Port.CashFlows.filter (fun cf => cf.Date.After c7S && !cf.Date.After c7E)).map
        (fun cf => cf.Amount *
          (((c7E.toDays - cf.Date.toDays : Int) : ℚ) /
            ((c7E.toDays - c7S.toDays : Int) : ℚ)))).sum
     (0 < c7PR.StartValue + wcf →
       c7PR.Return = c7PR.AbsoluteReturn / (c7PR.StartValue + wcf)) ∧
     (c7PR.StartValue + wcf ≤ 0 → c7PR.AbsoluteReturn ≠ 0 →
       c7PR.Return = c7PR.AbsoluteReturn / c7PR.NetCashFlow)) := by
  have ha1 : (Date.mk 2024 6 1).After (Date.mk 2024 1 1) = true := by decide
  have ha2 : (Date.mk 2024 6 1).After (Date.mk 2024 12 31) = false := by decide
  have hb : (Date.mk 2024 1 1).Before (Date.mk 2024 12 31) = true := by decide
  have hd1 : (Date.mk 2024 12 31).toDays - (Date.mk 2024 6 1).toDays = 213 := by decide
  have hd2 : (Date.mk 2024 12 31).toDays - (Date.mk 2024 1 1).toDays = 365 := by decide
  have hss : c7Port.Snapshot c7S = .ok c7SS := by
    norm_num [c7Port, c7S, c7E, c7SS, Portfolio.Snapshot, snapshotCommodities,
      NewLotRegistry, NewPriceHistory, Except.toOption, defaultSnapshot, ha1]
  have hes : c7Port.Snapshot c7E = .ok c7ES := by
    norm_num [c7Port, c7S, c7E, c7ES, Portfolio.Snapshot, snapshotCommodities,
      NewLotRegistry, NewPriceHistory, Except.toOption, defaultSnapshot, ha2]
  have hok : c7Port.PeriodReturns c7S c7E = .ok c7PR := by
    norm_num [c7Port, c7S, c7E, c7PR, Portfolio.PeriodReturns, Portfolio.Snapshot,
      snapshotCommodities, NewLotRegistry, NewPriceHistory, Except.toOption,
      defaultPeriodReturn, ha1, ha2, hb, hd1, hd2]
  exact (periodReturns_spec c7Port c7S c7E).2 c7PR c7SS c7ES hss hes hok

/-! ## Lemmas about the date-ordering check -/

theorem checkDates_ok :
    ∀ (entries : List LedgerEntry) (prev : Time), checkDates prev entries = .ok () →
      (∀ e0 ∈ entries.head?, prev.toDays ≤ e0.effDate.toDays) ∧
      entries.Chain' (fun a b => a.effDate.toDays ≤ b.effDate.toDays) := by
  intro entries
  induction entries with
  | nil => intro prev _; simp
  | cons e rest ih =>
    intro prev hok
    by_cases hlt : e.effDate.Before prev = true
    · simp [checkDates, checkEntryDate, hlt] at hok
    · simp only [checkDates, checkEntryDate] at hok
      rw [if_neg hlt] at hok
      obtain ⟨hhead, hchain⟩ := ih e.effDate hok
      constructor
      · intro e0 he0
        simp only [List.head?_cons, Option.mem_def, Option.some.injEq] at he0
        subst he0
        simp only [Date.Before, decide_eq_true_eq] at hlt
        omega
      · rw [List.chain'_cons']
        exact ⟨hhead, hchain⟩

/-- Claim C9: a sequence of entries accepted by the parser's threaded date
check is non-decreasing by effective date (accounting date when absent), and
any sequence with a consecutive pair out of order is rejected with an
error. -/
theorem parse_dates_nondecreasing :
    (∀ (entries : List LedgerEntry) (prev : Time),
      checkDates prev entries = .ok () →
      entries.Chain' (fun a b => a.effDate.toDays ≤ b.effDate.toDays)) ∧
    (∀ (entries : List LedgerEntry) (prev : Time),
      ¬ entries.Chain' (fun a b => a.effDate.toDays ≤ b.effDate.toDays) →
      ∃ err, checkDates prev entries = .error err) := by
  constructor
  · intro entries prev hok
    exact (checkDates_ok entries prev hok).2
  · intro entries prev hnc
    cases h : checkDates prev entries with
    | ok u =>
      cases u
      exact absurd (checkDates_ok entries prev h).2 hnc
    | error err => exact ⟨err, rfl⟩

theorem parse_dates_nondecreasing_witness :
    [c9E1, c9E2].Chain' (fun a b => a.effDate.toDays ≤ b.effDate.toDays) :=
  parse_dates_nondecreasing.1 [c9E1, c9E2] unixEpoch (by decide)

/-! ## Calendar lemmas -/

theorem daysInMonth_pos (z m2 : Int) : 1 ≤ daysInMonth z m2 := by
  unfold daysInMonth
  by_cases h2 : m2 = 2
  · rw [if_pos h2]
    by_cases hl : isLeapYear z = true
    · rw [if_pos hl]
      omega
    · rw [if_neg hl]
      omega
  · rw [if_neg h2]
    by_cases h3 : m2 = 4 ∨ m2 = 6 ∨ m2 = 9 ∨ m2 = 11
    · rw [if_pos h3]
      omega
    · rw [if_neg h3]
      omega

theorem daysInMonth_le (z m2 : Int) : daysInMonth z m2 ≤ 31 := by
  unfold daysInMonth
  by_cases h2 : m2 = 2
  · rw [if_pos h2]
    by_cases hl : isLeapYear z = true
    · rw [if_pos hl]
      omega
    · rw [if_neg hl]
      omega
  · rw [if_neg h2]
    by_cases h3 : m2 = 4 ∨ m2 = 6 ∨ m2 = 9 ∨ m2 = 11
    · rw [if_pos h3]
      omega
    · rw [if_neg h3]

theorem isLeapYear_iff (y : Int) :
    isLeapYear y = true ↔ (y % 4 = 0 ∧ (y % 100 ≠ 0 ∨ y % 400 = 0)) := by
  simp [isLeapYear]

theorem leapYearsBefore_succ (y : Int) :
    leapYearsBefore (y + 1) = leapYearsBefore y + (if isLeapYear y then 1 else 0) := by
  simp only [leapYearsBefore, add_sub_cancel_right]
  by_cases hl : isLeapYear y = true
  · rw [if_pos hl]
    rw [isLeapYear_iff] at hl
    obtain ⟨h4, hor⟩ := hl
    rcases hor with h100 | h400 <;> omega
  · rw [if_neg hl]
    rw [isLeapYear_iff] at hl
    push_neg at hl
    by_cases h4 : y % 4 = 0
    · obtain ⟨h100, h400⟩ := hl h4
      omega
    · omega

theorem daysBeforeMonth_succ (y m : Int) (h1 : 1 ≤ m) (h2 : m ≤ 12) :
    daysBeforeMonth y (m + 1) = daysBeforeMonth y m + daysInMonth y m := by
  interval_cases m <;>
    by_cases hl : isLeapYear y = true <;>
      simp [daysBeforeMonth, daysInMonth, hl]

theorem addDay_spec (dt : Date) (hv : ValidDate dt) :
    ValidDate dt.addDay ∧ dt.addDay.toDays = dt.toDays + 1 := by
  obtain ⟨hy, hm1, hm2, hd1, hd2⟩ := hv
  by_cases hlt : dt.day < daysInMonth dt.year dt.month
  · have hres : dt.addDay = ⟨dt.year, dt.month, dt.day + 1⟩ := by
      simp only [Date.addDay, if_pos hlt]
    rw [hres]
    constructor
    · exact ⟨hy, hm1, hm2,
        by show (1 : Int) ≤ dt.day + 1; omega,
        by show dt.day + 1 ≤ daysInMonth dt.year dt.month; omega⟩
    · show 365 * (dt.year - 1) + leapYearsBefore dt.year +
        daysBeforeMonth dt.year dt.month + (dt.day + 1) - 1 = dt.toDays + 1
      simp only [Date.toDays]
      ring
  · have hde : dt.day = daysInMonth dt.year dt.month := by omega
    by_cases hm12 : dt.month < 12
    · have hsucc := daysBeforeMonth_succ dt.year dt.month hm1 hm2
      have hres : dt.addDay = ⟨dt.year, dt.month + 1, 1⟩ := by
        simp only [Date.addDay, if_neg hlt, if_pos hm12]
      rw [hres]
      constructor
      · exact ⟨hy,
          by show (1 : Int) ≤ dt.month + 1; omega,
          by show dt.month + 1 ≤ 12; omega,
          le_rfl,
          by show (1 : Int) ≤ daysInMonth dt.year (dt.month + 1); exact daysInMonth_pos _ _⟩
      · show 365 * (dt.year - 1) + leapYearsBefore dt.year +
          daysBeforeMonth dt.year (dt.month + 1) + 1 - 1 = dt.toDays + 1
        simp only [Date.toDays]
        omega
    · have hme : dt.month = 12 := by omega
      have hres : dt.addDay = ⟨dt.year + 1, 1, 1⟩ := by
        simp only [Date.addDay, if_neg hlt, if_neg hm12]
      rw [hres]
      have h1 : daysBeforeMonth (dt.year + 1) 1 = 0 := by simp [daysBeforeMonth]
      have h2 := leapYearsBefore_succ dt.year
      have h3 : daysBeforeMonth dt.year dt.month =
          334 + (if isLeapYear dt.year then 1 else 0) := by
        rw [hme]
        simp [daysBeforeMonth]
      have h4 : dt.day = 31 := by
        rw [hme] at hde
        simpa [daysInMonth] using hde
      constructor
      · exact ⟨by show (1 : Int) ≤ dt.year + 1; omega,
          le_rfl, by norm_num, le_rfl,
          by show (1 : Int) ≤ daysInMonth (dt.year + 1) 1; exact daysInMonth_pos _ _⟩
      · show 365 * (dt.year + 1 - 1) + leapYearsBefore (dt.year + 1) +
          daysBeforeMonth (dt.year + 1) 1 + 1 - 1 = dt.toDays + 1
        simp only [Date.toDays]
        rw [h1, h2]
        by_cases hl : isLeapYear dt.year = true
        · rw [if_pos hl] at h2 ⊢
          rw [h3, if_pos hl]
          omega
        · rw [if_neg hl] at h2 ⊢
          rw [h3, if_neg hl]
          omega

/-! ## Month arithmetic (`AddDate` normalization) -/

theorem daysInMonth_ge (z m2 : Int) : 28 ≤ daysInMonth z m2 := by
  unfold daysInMonth
  by_cases h2 : m2 = 2
  · rw [if_pos h2]
    by_cases hl : isLeapYear z = true
    · rw [if_pos hl]
      omega
    · rw [if_neg hl]
  · rw [if_neg h2]
    by_cases h3 : m2 = 4 ∨ m2 = 6 ∨ m2 = 9 ∨ m2 = 11
    · rw [if_pos h3]
      omega
    · rw [if_neg h3]
      omega

theorem addWeek_spec (dt : Date) (hv : ValidDate dt) :
    ValidDate dt.addWeek ∧ dt.addWeek.toDays = dt.toDays + 7 := by
  obtain ⟨v1, e1⟩ := addDay_spec dt hv
  obtain ⟨v2, e2⟩ := addDay_spec _ v1
  obtain ⟨v3, e3⟩ := addDay_spec _ v2
  obtain ⟨v4, e4⟩ := addDay_spec _ v3
  obtain ⟨v5, e5⟩ := addDay_spec _ v4
  obtain ⟨v6, e6⟩ := addDay_spec _ v5
  obtain ⟨v7, e7⟩ := addDay_spec _ v6
  exact ⟨v7, by simp only [Date.addWeek]; omega⟩

theorem addMonth_spec (dt : Date) (hv : ValidDate dt) :
    ValidDate dt.addMonth ∧ dt.toDays < dt.addMonth.toDays := by
  obtain ⟨hy, hm1, hm2, hd1, hd2⟩ := hv
  by_cases hm12 : dt.month = 12
  · have hd31 : dt.day ≤ 31 := by
      rw [hm12] at hd2
      norm_num [daysInMonth] at hd2
      exact hd2
    have hdim : daysInMonth (dt.year + 1) 1 = 31 := by norm_num [daysInMonth]
    have hres : dt.addMonth = ⟨dt.year + 1, 1, dt.day⟩ := by
      simp [Date.addMonth, hm12, hdim, hd31]
    refine ⟨?_, ?_⟩
    · rw [hres]
      exact ⟨by show (1 : Int) ≤ dt.year + 1; omega, le_rfl,
        by show (1 : Int) ≤ 12; norm_num, hd1,
        by show dt.day ≤ daysInMonth (dt.year + 1) 1; rw [hdim]; exact hd31⟩
    · rw [hres]
      show dt.toDays < 365 * (dt.year + 1 - 1) + leapYearsBefore (dt.year + 1) +
        daysBeforeMonth (dt.year + 1) 1 + dt.day - 1
      have hlyb := leapYearsBefore_succ dt.year
      have hdbm : daysBeforeMonth dt.year 12 = 334 + (if isLeapYear dt.year then 1 else 0) := by
        norm_num [daysBeforeMonth]
      have hdbm1 : daysBeforeMonth (dt.year + 1) 1 = 0 := by norm_num [daysBeforeMonth]
      simp only [Date.toDays, hm12, hdbm1, hdbm, hlyb]
      by_cases hl : isLeapYear dt.year = true
      · simp only [if_pos hl]
        omega
      · simp only [if_neg hl]
        omega
  · by_cases hd : dt.day ≤ daysInMonth dt.year (dt.month + 1)
    · have hres : dt.addMonth = ⟨dt.year, dt.month + 1, dt.day⟩ := by
        simp [Date.addMonth, hm12, hd]
      have hsucc := daysBeforeMonth_succ dt.year dt.month hm1 hm2
      have hpos := daysInMonth_pos dt.year dt.month
      refine ⟨?_, ?_⟩
      · rw [hres]
        exact ⟨hy, by show (1 : Int) ≤ dt.month + 1; omega,
          by show dt.month + 1 ≤ 12; omega, hd1,
          by show dt.day ≤ daysInMonth dt.year (dt.month + 1); exact hd⟩
      · rw [hres]
        show dt.toDays < 365 * (dt.year - 1) + leapYearsBefore dt.year +
          daysBeforeMonth dt.year (dt.month + 1) + dt.day - 1
        simp only [Date.toDays]
        omega
    · push_neg at hd
      by_cases hm10 : dt.month + 1 < 12
      · have hd' : ¬ dt.day ≤ daysInMonth dt.year (dt.month + 1) := by omega
        have hres : dt.addMonth =
            ⟨dt.year, dt.month + 1 + 1, dt.day - daysInMonth dt.year (dt.month + 1)⟩ := by
          simp [Date.addMonth, hm12, hd', hm10]
        have hge1 : 28 ≤ daysInMonth dt.year (dt.month + 1) := daysInMonth_ge _ _
        have hge2 : 28 ≤ daysInMonth dt.year (dt.month + 1 + 1) := daysInMonth_ge _ _
        have hle31 : daysInMonth dt.year dt.month ≤ 31 := daysInMonth_le _ _
        have h1 := daysBeforeMonth_succ dt.year dt.month hm1 hm2
        have h2 := daysBeforeMonth_succ dt.year (dt.month + 1) (by omega) (by omega)
        have hpos := daysInMonth_pos dt.year dt.month
        refine ⟨?_, ?_⟩
        · rw [hres]
          exact ⟨hy, by show (1 : Int) ≤ dt.month + 1 + 1; omega,
            by show dt.month + 1 + 1 ≤ 12; omega,
            by show (1 : Int) ≤ dt.day - daysInMonth dt.year (dt.month + 1); omega,
            by show dt.day - daysInMonth dt.year (dt.month + 1)
                ≤ daysInMonth dt.year (dt.month + 1 + 1); omega⟩
        · rw [hres]
          show dt.toDays < 365 * (dt.year - 1) + leapYearsBefore dt.year +
            daysBeforeMonth dt.year (dt.month + 1 + 1) +
            (dt.day - daysInMonth dt.year (dt.month + 1)) - 1
          simp only [Date.toDays]
          omega
      · exfalso
        have hm11 : dt.month = 11 := by omega
        rw [hm11] at hd hd2
        norm_num [daysInMonth] at hd hd2
        omega

theorem nextDate_spec (dt : Date) (iv : SeriesInterval) (hv : ValidDate dt) :
    ValidDate (nextDate dt iv) ∧ dt.toDays < (nextDate dt iv).toDays := by
  cases iv with
  | Daily =>
    obtain ⟨v, e⟩ := addDay_spec dt hv
    exact ⟨v, by simp only [nextDate]; omega⟩
  | Weekly =>
    obtain ⟨v, e⟩ := addWeek_spec dt hv
    exact ⟨v, by simp only [nextDate]; omega⟩
  | Monthly =>
    obtain ⟨v, e⟩ := addMonth_spec dt hv
    exact ⟨v, by simp only [nextDate]; omega⟩

theorem after_eq_false_iff (a b : Date) : a.After b = false ↔ a.toDays ≤ b.toDays := by
  simp [Date.After]

theorem before_eq_true_iff (a b : Date) : a.Before b = true ↔ a.toDays < b.toDays := by
  simp [Date.Before]

/-! ## Lemmas about the time-series loop structure -/

theorem stepDates_le (e : Time) (iv : SeriesInterval) :
    ∀ (f : Nat) (s d : Time), d ∈ stepDates e iv f s → d.After e = false := by
  intro f
  induction f with
  | zero =>
    intro s d h
    simp [stepDates] at h
  | succ n ih =>
    intro s d h
    simp only [stepDates] at h
    by_cases hse : s.After e = true
    · rw [if_pos hse] at h
      simp at h
    · rw [if_neg hse] at h
      rcases List.mem_cons.mp h with rfl | h2
      · exact Bool.eq_false_iff.mpr hse
      · exact ih _ _ h2

theorem stepDates_start_mem (e : Time) (iv : SeriesInterval) (f : Nat) (s : Time)
    (hf : 0 < f) (hs : s.After e = false) : s ∈ stepDates e iv f s := by
  cases f with
  | zero => exact absurd hf (lt_irrefl 0)
  | succ n => simp [stepDates, hs]

theorem stepDates_closure (e : Time) (iv : SeriesInterval) :
    ∀ (f : Nat) (s : Time), ValidDate s → (e.toDays + 1 - s.toDays).toNat ≤ f →
      ∀ d ∈ stepDates e iv f s, (nextDate d iv).After e = false →
        nextDate d iv ∈ stepDates e iv f s := by
  intro f
  induction f with
  | zero =>
    intro s _ _ d hd
    simp [stepDates] at hd
  | succ n ih =>
    intro s hvs hfs d hd hnext
    simp only [stepDates] at hd ⊢
    by_cases hse : s.After e = true
    · rw [if_pos hse] at hd
      simp at hd
    · rw [if_neg hse] at hd ⊢
      obtain ⟨hvn, hstep⟩ := nextDate_spec s iv hvs
      have hfuel : (e.toDays + 1 - (nextDate s iv).toDays).toNat ≤ n := by omega
      rcases List.mem_cons.mp hd with heq | h2
      · rw [heq] at hnext
        rw [heq]
        refine List.mem_cons_of_mem _ ?_
        have hle : (nextDate s iv).toDays ≤ e.toDays := (after_eq_false_iff _ _).mp hnext
        exact stepDates_start_mem e iv n (nextDate s iv) (by omega) hnext
      · exact List.mem_cons_of_mem _ (ih (nextDate s iv) hvn hfuel d h2 hnext)

theorem stepDates_ge (e : Time) (iv : SeriesInterval) :
    ∀ (f : Nat) (s : Time), ValidDate s → ∀ d ∈ stepDates e iv f s, s.toDays ≤ d.toDays := by
  intro f
  induction f with
  | zero =>
    intro s _ d hd
    simp [stepDates] at hd
  | succ n ih =>
    intro s hvs d hd
    simp only [stepDates] at hd
    by_cases hse : s.After e = true
    · rw [if_pos hse] at hd
      simp at hd
    · rw [if_neg hse] at hd
      obtain ⟨hvn, hstep⟩ := nextDate_spec s iv hvs
      rcases List.mem_cons.mp hd with rfl | h2
      · exact le_rfl
      · have := ih (nextDate s iv) hvn d h2
        omega

theorem stepDates_pairwise (e : Time) (iv : SeriesInterval) :
    ∀ (f : Nat) (s : Time), ValidDate s →
      List.Pairwise (fun a b : Time => a.toDays < b.toDays) (stepDates e iv f s) := by
  intro f
  induction f with
  | zero =>
    intro s _
    simp [stepDates]
  | succ n ih =>
    intro s hvs
    simp only [stepDates]
    by_cases hse : s.After e = true
    · rw [if_pos hse]
      simp
    · rw [if_neg hse]
      obtain ⟨hvn, hstep⟩ := nextDate_spec s iv hvs
      refine List.pairwise_cons.mpr ⟨?_, ih (nextDate s iv) hvn⟩
      intro d hd
      have := stepDates_ge e iv n (nextDate s iv) hvn d hd
      omega

theorem buildLoop_eq_foldl (p : Portfolio) (e : Time) (iv : SeriesInterval) :
    ∀ (f : Nat) (s : Time) (pts : PortfolioTimeSeries),
      buildLoop p e iv f s pts = (stepDates e iv f s).foldl (buildStep p) pts := by
  intro f
  induction f with
  | zero =>
    intro s pts
    simp [buildLoop, stepDates]
  | succ n ih =>
    intro s pts
    simp only [buildLoop, stepDates]
    by_cases hse : s.After e = true
    · rw [if_pos hse, if_pos hse]
      simp
    · rw [if_neg hse, if_neg hse]
      simp only [List.foldl_cons]
      exact ih (nextDate s iv) (buildStep p pts s)

/-! ## Lemmas about date-sorted point lists -/

theorem mem_insertTSPoint (pt : TimeSeriesPoint) :
    ∀ (l : List TimeSeriesPoint) (q : TimeSeriesPoint),
      q ∈ insertTSPointByDate pt l ↔ q = pt ∨ q ∈ l := by
  intro l
  induction l with
  | nil =>
    intro q
    simp [insertTSPointByDate]
  | cons p rest ih =>
    intro q
    simp only [insertTSPointByDate]
    by_cases h : pt.Date.toDays < p.Date.toDays
    · rw [if_pos h]
      simp [List.mem_cons]
    · rw [if_neg h]
      simp only [List.mem_cons, ih]
      tauto

theorem mem_sortTSPoints :
    ∀ (l : List TimeSeriesPoint) (q : TimeSeriesPoint),
      q ∈ sortTSPointsByDate l ↔ q ∈ l := by
  intro l
  induction l with
  | nil =>
    intro q
    simp [sortTSPointsByDate]
  | cons p rest ih =>
    intro q
    simp only [sortTSPointsByDate, mem_insertTSPoint, ih, List.mem_cons]

theorem sortTSPoints_id_of_chain :
    ∀ l : List TimeSeriesPoint,
      List.Chain' (fun a b : TimeSeriesPoint => a.Date.toDays < b.Date.toDays) l →
      sortTSPointsByDate l = l := by
  intro l
  induction l with
  | nil =>
    intro _
    simp [sortTSPointsByDate]
  | cons x rest ih =>
    intro h
    simp only [sortTSPointsByDate]
    rw [ih h.tail]
    cases rest with
    | nil => simp [insertTSPointByDate]
    | cons y t =>
      have hxy : x.Date.toDays < y.Date.toDays := (List.chain'_cons.mp h).1
      simp [insertTSPointByDate, hxy]

theorem chainTS_concat :
    ∀ (l : List TimeSeriesPoint) (pt : TimeSeriesPoint),
      List.Chain' (fun a b : TimeSeriesPoint => a.Date.toDays < b.Date.toDays) l →
      (∀ q ∈ l, q.Date.toDays < pt.Date.toDays) →
      List.Chain' (fun a b : TimeSeriesPoint => a.Date.toDays < b.Date.toDays) (l ++ [pt]) := by
  intro l
  induction l with
  | nil =>
    intro pt _ _
    simp
  | cons x rest ih =>
    intro pt hch hmax
    rw [List.cons_append]
    cases rest with
    | nil =>
      refine List.chain'_cons.mpr ⟨hmax x (by simp), ?_⟩
      simp
    | cons y t =>
      refine List.chain'_cons.mpr ⟨(List.chain'_cons.mp hch).1, ?_⟩
      have := ih pt (List.chain'_cons.mp hch).2
        (fun q hq => hmax q (List.mem_cons_of_mem _ hq))
      simpa using this

theorem tsAdd_points_concat (ts : TimeSeries) (d : Time) (v : ℚ)
    (hch : List.Chain' (fun a b : TimeSeriesPoint => a.Date.toDays < b.Date.toDays) ts.Points)
    (hmax : ∀ q ∈ ts.Points, q.Date.toDays < d.toDays) :
    (ts.Add d v).Points = ts.Points ++ [{ Date := d, Value := v }] := by
  simp only [TimeSeries.Add]
  exact sortTSPoints_id_of_chain _ (chainTS_concat _ _ hch hmax)

theorem tsHasDate_Add (ts : TimeSeries) (d0 : Time) (v : ℚ) (d : Time) :
    tsHasDate (ts.Add d0 v) d → d = d0 ∨ tsHasDate ts d := by
  rintro ⟨pt, hpt, hd⟩
  simp only [TimeSeries.Add] at hpt
  rw [mem_sortTSPoints] at hpt
  rcases List.mem_append.mp hpt with h | h
  · exact Or.inr ⟨pt, h, hd⟩
  · simp only [List.mem_singleton] at h
    subst h
    exact Or.inl hd.symm

/-! ## Lemmas about map updates and point membership in the series bundle -/

theorem mem_mapSet {α : Type} :
    ∀ (m : List (String × α)) (k : String) (v : α) (x : String × α),
      x ∈ mapSet m k v → x = (k, v) ∨ x ∈ m := by
  intro m
  induction m with
  | nil =>
    intro k v x hx
    simp [mapSet] at hx
    exact Or.inl hx
  | cons h t ih =>
    intro k v x hx
    obtain ⟨k', v'⟩ := h
    simp only [mapSet] at hx
    by_cases hk : k' = k
    · rw [if_pos hk] at hx
      rcases List.mem_cons.mp hx with h1 | h2
      · exact Or.inl h1
      · exact Or.inr (List.mem_cons_of_mem _ h2)
    · rw [if_neg hk] at hx
      rcases List.mem_cons.mp hx with h1 | h2
      · exact Or.inr (h1 ▸ List.mem_cons_self _ _)
      · rcases ih k v x h2 with h3 | h3
        · exact Or.inl h3
        · exact Or.inr (List.mem_cons_of_mem _ h3)

theorem lookupD_default_or_mem {α : Type} :
    ∀ (m : List (String × α)) (k : String) (dflt : α),
      lookupD m k dflt = dflt ∨ (k, lookupD m k dflt) ∈ m := by
  intro m
  induction m with
  | nil =>
    intro k dflt
    exact Or.inl rfl
  | cons h t ih =>
    intro k dflt
    obtain ⟨k', v'⟩ := h
    simp only [lookupD]
    by_cases hk : k' = k
    · rw [if_pos hk]
      subst hk
      exact Or.inr (List.mem_cons_self _ _)
    · rw [if_neg hk]
      rcases ih k dflt with h1 | h1
      · exact Or.inl h1
      · exact Or.inr (List.mem_cons_of_mem _ h1)

theorem addHoldingPoints_mentions (d0 : Time) (sfx : String) (val : CommodityHolding → ℚ) :
    ∀ (hs : List (String × CommodityHolding)) (m : List (String × TimeSeries))
      (cts : String × TimeSeries) (d : Time),
      cts ∈ addHoldingPoints d0 hs m sfx val → tsHasDate cts.2 d →
      d = d0 ∨ ∃ cts' ∈ m, tsHasDate cts'.2 d := by
  intro hs
  induction hs with
  | nil =>
    intro m cts d hmem hhas
    right
    exact ⟨cts, by simpa [addHoldingPoints] using hmem, hhas⟩
  | cons h t ih =>
    intro m cts d hmem hhas
    have hmem' : cts ∈ addHoldingPoints d0 t
        (mapSet m h.1 ((lookupD m h.1 (NewTimeSeries (h.1 ++ sfx))).Add d0 (val h.2)))
        sfx val := by
      simpa [addHoldingPoints, List.foldl_cons] using hmem
    rcases ih _ cts d hmem' hhas with h1 | ⟨cts', hc', hh'⟩
    · exact Or.inl h1
    · rcases mem_mapSet _ _ _ _ hc' with heq | hmm2
      · subst heq
        rcases tsHasDate_Add _ _ _ _ hh' with h2 | h2
        · exact Or.inl h2
        · rcases lookupD_default_or_mem m h.1 (NewTimeSeries (h.1 ++ sfx)) with hdef | hmem2
          · rw [hdef] at h2
            rcases h2 with ⟨pt, hpt, _⟩
            simp [NewTimeSeries] at hpt
          · exact Or.inr ⟨(h.1, lookupD m h.1 (NewTimeSeries (h.1 ++ sfx))), hmem2, h2⟩
      · exact Or.inr ⟨cts', hmm2, hh'⟩

theorem buildStep_mentions (p : Portfolio) (pts : PortfolioTimeSeries) (a d : Time) :
    mentionsDate (buildStep p pts a) d →
    mentionsDate pts d ∨ (d = a ∧ ∃ snap, p.Snapshot a = .ok snap) := by
  intro h
  cases hsnap : p.Snapshot a with
  | error err =>
    simp only [buildStep, hsnap] at h
    exact Or.inl h
  | ok snap =>
    simp only [buildStep, hsnap] at h
    simp only [mentionsDate] at h
    rcases h with h | h | h | h | ⟨cts, hc, hh⟩ | ⟨cts, hc, hh⟩
    · rcases tsHasDate_Add _ _ _ _ h with heq | h2
      · exact Or.inr ⟨heq, snap, rfl⟩
      · exact Or.inl (Or.inl h2)
    · rcases tsHasDate_Add _ _ _ _ h with heq | h2
      · exact Or.inr ⟨heq, snap, rfl⟩
      · exact Or.inl (Or.inr (Or.inl h2))
    · rcases tsHasDate_Add _ _ _ _ h with heq | h2
      · exact Or.inr ⟨heq, snap, rfl⟩
      · exact Or.inl (Or.inr (Or.inr (Or.inl h2)))
    · rcases tsHasDate_Add _ _ _ _ h with heq | h2
      · exact Or.inr ⟨heq, snap, rfl⟩
      · exact Or.inl (Or.inr (Or.inr (Or.inr (Or.inl h2))))
    · rcases addHoldingPoints_mentions _ _ _ _ _ cts d hc hh with heq | ⟨cts', hc', hh'⟩
      · exact Or.inr ⟨heq, snap, rfl⟩
      · exact Or.inl (Or.inr (Or.inr (Or.inr (Or.inr (Or.inl ⟨cts', hc', hh'⟩)))))
    · rcases addHoldingPoints_mentions _ _ _ _ _ cts d hc hh with heq | ⟨cts', hc', hh'⟩
      · exact Or.inr ⟨heq, snap, rfl⟩
      · exact Or.inl (Or.inr (Or.inr (Or.inr (Or.inr (Or.inr ⟨cts', hc', hh'⟩)))))

theorem mentionsDate_new (d : Time) : ¬ mentionsDate NewPortfolioTimeSeries d := by
  intro h
  simp [mentionsDate, tsHasDate, NewPortfolioTimeSeries, NewTimeSeries] at h

theorem buildFold_mentions (p : Portfolio) :
    ∀ (ds : List Time) (pts : PortfolioTimeSeries) (d : Time),
      mentionsDate (ds.foldl (buildStep p) pts) d →
      mentionsDate pts d ∨ (d ∈ ds ∧ ∃ snap, p.Snapshot d = .ok snap) := by
  intro ds
  induction ds with
  | nil =>
    intro pts d h
    exact Or.inl h
  | cons a rest ih =>
    intro pts d h
    rw [List.foldl_cons] at h
    rcases ih _ d h with h1 | ⟨hmem, hok⟩
    · rcases buildStep_mentions p pts a d h1 with h2 | ⟨heq, hok⟩
      · exact Or.inl h2
      · subst heq
        exact Or.inr ⟨List.mem_cons_self _ _, hok⟩
    · exact Or.inr ⟨List.mem_cons_of_mem _ hmem, hok⟩

/-! ## The realized-gain series produced by the loop -/

theorem buildFold_realized (p : Portfolio) :
    ∀ (ds : List Time) (pts : PortfolioTimeSeries),
      List.Pairwise (fun a b : Time => a.toDays < b.toDays) ds →
      List.Chain' (fun a b : TimeSeriesPoint => a.Date.toDays < b.Date.toDays)
        pts.RealizedGain.Points →
      (∀ q ∈ pts.RealizedGain.Points, ∀ d ∈ ds, q.Date.toDays < d.toDays) →
      (ds.foldl (buildStep p) pts).RealizedGain.Points =
        pts.RealizedGain.Points ++
          (ds.filter (fun d => (p.Snapshot d).toOption.isSome)).map
            (fun d => { Date := d, Value := realizedGainToDate p d }) := by
  intro ds
  induction ds with
  | nil =>
    intro pts _ _ _
    simp
  | cons a rest ih =>
    intro pts hpw hch hlt
    simp only [List.foldl_cons, List.filter_cons]
    cases hsnap : p.Snapshot a with
    | error err =>
      have hstep : buildStep p pts a = pts := by
        simp [buildStep, hsnap]
      have hpa : ((Except.error err : Except PriceError PortfolioSnapshot).toOption.isSome)
          = false := rfl
      rw [hstep, hpa]
      simp only [Bool.false_eq_true, if_false]
      exact ih pts hpw.of_cons hch
        (fun q hq d hd => hlt q hq d (List.mem_cons_of_mem _ hd))
    | ok snap =>
      have hmax : ∀ q ∈ pts.RealizedGain.Points, q.Date.toDays < a.toDays :=
        fun q hq => hlt q hq a (List.mem_cons_self _ _)
      have hadd := tsAdd_points_concat pts.RealizedGain a (realizedGainToDate p a) hch hmax
      have h1 : (buildStep p pts a).RealizedGain.Points =
          pts.RealizedGain.Points ++ [{ Date := a, Value := realizedGainToDate p a }] := by
        simp only [buildStep, hsnap]
        exact hadd
      have hpa : ((Except.ok snap : Except PriceError PortfolioSnapshot).toOption.isSome)
          = true := rfl
      have hch' : List.Chain' (fun q r : TimeSeriesPoint => q.Date.toDays < r.Date.toDays)
          (buildStep p pts a).RealizedGain.Points := by
        rw [h1]
        exact chainTS_concat _ _ hch hmax
      have hlt' : ∀ q ∈ (buildStep p pts a).RealizedGain.Points, ∀ d ∈ rest,
          q.Date.toDays < d.toDays := by
        intro q hq d hd
        rw [h1] at hq
        rcases List.mem_append.mp hq with hmem | hmem
        · exact hlt q hmem d (List.mem_cons_of_mem _ hd)
        · simp only [List.mem_singleton] at hmem
          subst hmem
          exact (List.pairwise_cons.mp hpw).1 d hd
      rw [ih _ (List.pairwise_cons.mp hpw).2 hch' hlt', h1, hpa]
      simp

theorem realizedGainToDate_eq_sum (p : Portfolio) (d : Time) :
    realizedGainToDate p d =
      ((p.Lots.Disposals.filter (fun dp => !dp.DisposalDate.After d)).map
        (fun dp => dp.RealizedGain)).sum := by
  have h := foldl_if_filter_sum (fun dp : LotDisposal => !dp.DisposalDate.After d)
    (fun dp => dp.RealizedGain) p.Lots.Disposals 0
  simpa [realizedGainToDate] using h

/-- **C8**: `BuildTimeSeries(start, end, interval)` errors exactly when
`start` is not strictly before `end`.  On success the loop visits the step
dates from `start` through `end` inclusive, advancing by one day, seven days,
or one calendar month: `start` is visited, every visited date is on or before
`end`, and whenever a visited date's successor is still on or before `end`
that successor is visited too.  A date whose snapshot fails contributes no
point to any series and the build continues without error.  The realized-gain
series holds exactly one point per snapshot-succeeding visited date, in
order, whose value is the sum of `RealizedGain` over all disposal records
with disposal date on or before that date (recomputed per point). -/
theorem buildTimeSeries_spec (p : Portfolio) (s e : Time) (iv : SeriesInterval)
    (hv : ValidDate s) (hlt : s.Before e = true) :
    (∀ (q : Portfolio) (a b : Time) (jv : SeriesInterval),
      (∃ msg, q.BuildTimeSeries a b jv = .error msg) ↔ a.Before b = false) ∧
    ∃ pts, p.BuildTimeSeries s e iv = .ok pts ∧
      s ∈ stepDates e iv (e.toDays + 1 - s.toDays).toNat s ∧
      (∀ d ∈ stepDates e iv (e.toDays + 1 - s.toDays).toNat s, d.After e = false) ∧
      (∀ d ∈ stepDates e iv (e.toDays + 1 - s.toDays).toNat s,
        (nextDate d iv).After e = false →
          nextDate d iv ∈ stepDates e iv (e.toDays + 1 - s.toDays).toNat s) ∧
      (∀ d : Time, (∀ snap, p.Snapshot d ≠ .ok snap) → ¬ mentionsDate pts d) ∧
      pts.RealizedGain.Points =
        ((stepDates e iv (e.toDays + 1 - s.toDays).toNat s).filter
          (fun d => (p.Snapshot d).toOption.isSome)).map
          (fun d => { Date := d, Value := realizedGainToDate p d }) ∧
      (∀ d : Time, realizedGainToDate p d =
        ((p.Lots.Disposals.filter (fun dp => !dp.DisposalDate.After d)).map
          (fun dp => dp.RealizedGain)).sum) := by
  have hdays : s.toDays < e.toDays := (before_eq_true_iff _ _).mp hlt
  constructor
  · intro q a b jv
    constructor
    · rintro ⟨msg, hmsg⟩
      by_contra hab
      have hab' : a.Before b = true := by
        cases h : a.Before b
        · exact absurd h hab
        · rfl
      simp [Portfolio.BuildTimeSeries, hab'] at hmsg
    · intro hab
      exact ⟨"start date must be before end date",
        by simp [Portfolio.BuildTimeSeries, hab]⟩
  · refine ⟨buildLoop p e iv (e.toDays + 1 - s.toDays).toNat s NewPortfolioTimeSeries,
      by simp [Portfolio.BuildTimeSeries, hlt], ?_, ?_, ?_, ?_, ?_, ?_⟩
    · exact stepDates_start_mem e iv _ s (by omega)
        ((after_eq_false_iff _ _).mpr (le_of_lt hdays))
    · intro d hd
      exact stepDates_le e iv _ s d hd
    · exact stepDates_closure e iv _ s hv le_rfl
    · intro d hfail hmen
      rw [buildLoop_eq_foldl] at hmen
      rcases buildFold_mentions p _ _ d hmen with h1 | ⟨_, snap, hok⟩
      · exact mentionsDate_new d h1
      · exact hfail snap hok
    · rw [buildLoop_eq_foldl]
      have hres := buildFold_realized p
        (stepDates e iv (e.toDays + 1 - s.toDays).toNat s) NewPortfolioTimeSeries
        (stepDates_pairwise e iv _ s hv)
        (by simp [NewPortfolioTimeSeries, NewTimeSeries])
        (by intro q hq; simp [NewPortfolioTimeSeries, NewTimeSeries] at hq)
      simpa [NewPortfolioTimeSeries, NewTimeSeries] using hres
    · intro d
      exact realizedGainToDate_eq_sum p d

/-- The time-series theorem applies to the empty portfolio over
2024/01/01–2024/01/03: the hypotheses hold and the build succeeds. -/
theorem buildTimeSeries_spec_witness :
    ValidDate c8S ∧ c8S.Before c8E = true ∧
      ∃ pts, c8Port.BuildTimeSeries c8S c8E SeriesInterval.Daily = .ok pts :=
  ⟨by decide, by decide,
    Exists.imp (fun _ h => h.1)
      ((buildTimeSeries_spec c8Port c8S c8E SeriesInterval.Daily (by decide) (by decide)).2)⟩
